import Mathlib

/-!
Verification of nonoconfig: path resolution and reflective decoding.

A shallow embedding of `src/nonoconfig.go`.

* `Src` is the tree that `yaml.Unmarshal` stores in the `interface{}` field
  `NoNoConfig.c`: `nil`, `bool`, `int`, `float64`, `string`, `[]interface{}`,
  `map[string]interface{}` and `map[interface{}]interface{}`.
* `Ty` / `DVal` are the static type and the current content of the variable a
  destination pointer points to.
* a `reflect.Value` over the tree is a pair `(Handle, Src)`: `Handle.direct` is
  the value returned by `reflect.ValueOf` (concrete kind, or the invalid zero
  `Value` for `nil`), `Handle.elem` is a value obtained from `MapIndex`,
  `Index` or a map iterator over `interface{}` elements (kind `Interface`).
* a run-time panic of the `reflect` package is the outcome `Outcome.panic`.
* the file system and the parser are the fields of `World`; a call of `Config`
  returns its outcome together with the instance afterwards and the list of
  file-system accesses it made.

Integers are mathematical integers, narrowed explicitly on store (`wrapInt`,
platform `int` is 64 bits wide).  A `float64` is its bit pattern; the
conversion to `float32` is a parameter (`Float32Conv`) and equality of floats
is equality of bit patterns.  The keys passed to `Config` are values of the
types the parser produces.
-/

namespace Nonoconfig

/-! ## Source trees -/

/-- The generic tree produced by the YAML parser. `map true es` is a
`map[string]interface{}` (every key is a `str`), `map false es` a
`map[interface{}]interface{}`; the list order is the iteration order. -/
inductive Src where
  | null
  | bool (b : Bool)
  | int (n : Int)
  | float (bits : Nat)
  | str (s : String)
  | seq (xs : List Src)
  | map (strKeyed : Bool) (es : List (Src × Src))
  deriving Repr, Inhabited

mutual
/-- Structural equality test on source trees. -/
def Src.beq : Src → Src → Bool
  | .null, .null => true
  | .bool a, .bool b => a == b
  | .int a, .int b => a == b
  | .float a, .float b => a == b
  | .str a, .str b => a == b
  | .seq a, .seq b => Src.beqList a b
  | .map s a, .map t b => s == t && Src.beqEntries a b
  | _, _ => false
/-- Structural equality test on lists of source trees. -/
def Src.beqList : List Src → List Src → Bool
  | [], [] => true
  | x :: xs, y :: ys => Src.beq x y && Src.beqList xs ys
  | _, _ => false
/-- Structural equality test on mapping entries. -/
def Src.beqEntries : List (Src × Src) → List (Src × Src) → Bool
  | [], [] => true
  | (k, x) :: xs, (l, y) :: ys => Src.beq k l && Src.beq x y && Src.beqEntries xs ys
  | _, _ => false
end

/-! ## Destination types and values -/

/-- The signed integer kinds the decoder has a rule for. -/
inductive IntKind where
  | int | int8 | int16 | int32 | int64
  deriving DecidableEq, Repr

/-- Width in bits (the platform `int` is 64 bits wide). -/
def IntKind.bits : IntKind → Nat
  | .int => 64
  | .int8 => 8
  | .int16 => 16
  | .int32 => 32
  | .int64 => 64

/-- The floating-point kinds. -/
inductive FloatKind where
  | float32 | float64
  deriving DecidableEq, Repr

/-- What `reflect.StructField` tells the decoder about a field: its declared
name, the result of `Tag.Lookup("nonoconfig")`, and whether it is exported. -/
structure FieldInfo where
  name : String
  tag : Option String
  exported : Bool
  deriving DecidableEq, Repr

/-- Static type of a destination variable. `other` stands for every kind the
`switch out.Kind()` has no case for (unsigned integers, pointers, channels,
functions, complex numbers, ...). `iface` is the empty interface. -/
inductive Ty where
  | iface
  | str
  | bool
  | int (k : IntKind)
  | float (k : FloatKind)
  | slice (e : Ty)
  | array (n : Nat) (e : Ty)
  | map (k v : Ty)
  | struct (fs : List (FieldInfo × Ty))
  | other
  deriving Repr, Inhabited

/-- Content of a destination variable. `nilSlice` and `nilMap` are the nil
slice and the nil map; `slice xs` and `map es` are non-nil. A map is an
association list with pairwise distinct keys. `iface v` is an `interface{}`
variable holding the tree `v` (`Src.null` for the nil interface). -/
inductive DVal where
  | iface (v : Src)
  | str (s : String)
  | bool (b : Bool)
  | int (n : Int)
  | float (bits : Nat)
  | nilSlice
  | slice (xs : List DVal)
  | array (xs : List DVal)
  | nilMap
  | map (es : List (DVal × DVal))
  | struct (fs : List DVal)
  | other (tok : Nat)
  deriving Repr, Inhabited

mutual
/-- Structural equality test on destination values (Go's `==` on map keys). -/
def DVal.beq : DVal → DVal → Bool
  | .iface a, .iface b => Src.beq a b
  | .str a, .str b => a == b
  | .bool a, .bool b => a == b
  | .int a, .int b => a == b
  | .float a, .float b => a == b
  | .nilSlice, .nilSlice => true
  | .slice a, .slice b => DVal.beqList a b
  | .array a, .array b => DVal.beqList a b
  | .nilMap, .nilMap => true
  | .map a, .map b => DVal.beqEntries a b
  | .struct a, .struct b => DVal.beqList a b
  | .other a, .other b => a == b
  | _, _ => false
/-- Structural equality test on lists of destination values. -/
def DVal.beqList : List DVal → List DVal → Bool
  | [], [] => true
  | x :: xs, y :: ys => DVal.beq x y && DVal.beqList xs ys
  | _, _ => false
/-- Structural equality test on destination map entries. -/
def DVal.beqEntries : List (DVal × DVal) → List (DVal × DVal) → Bool
  | [], [] => true
  | (k, x) :: xs, (l, y) :: ys => DVal.beq k l && DVal.beq x y && DVal.beqEntries xs ys
  | _, _ => false
end

mutual
/-- The zero value of a type: `reflect.Zero(t)`, also the content of the
variable `reflect.New(t)` points to. -/
def zero : Ty → DVal
  | .iface => .iface .null
  | .str => .str ""
  | .bool => .bool false
  | .int _ => .int 0
  | .float _ => .float 0
  | .slice _ => .nilSlice
  | .array n e => .array (List.replicate n (zero e))
  | .map _ _ => .nilMap
  | .struct fs => .struct (zeroFields fs)
  | .other => .other 0
/-- The zero values of a struct's fields, in declaration order. -/
def zeroFields : List (FieldInfo × Ty) → List DVal
  | [] => []
  | (_, t) :: fs => zero t :: zeroFields fs
end

/-! ## Reflection primitives -/

/-- The conversion `float32(x)` of a `float64`, on bit patterns; a language
primitive, taken as a parameter. It maps `+0` to `+0`. -/
structure Float32Conv where
  conv : Nat → Nat
  conv_zero : conv 0 = 0

/-- Narrowing of an `int64` to a signed integer kind (two's complement), as
done by `reflect.Value.SetInt`. -/
def wrapInt (k : IntKind) (n : Int) : Int :=
  let m : Int := 2 ^ k.bits
  let r := n % m
  if r < m / 2 then r else r - m

/-- What `reflect.Value.SetFloat` stores for the destination's kind. -/
def setFloat (cv : Float32Conv) (k : FloatKind) (bits : Nat) : Nat :=
  match k with
  | .float32 => cv.conv bits
  | .float64 => bits

/-- How a `reflect.Value` over the tree was obtained, which fixes its kind:
`direct` is `reflect.ValueOf(x)` (the concrete kind of `x`; the invalid zero
`Value` when `x` is nil) and also the key of a `map[string]interface{}`
iterator (kind `String`); `elem` is an element of a container of
`interface{}` (kind `Interface`, possibly holding nil). -/
inductive Handle where
  | direct
  | elem
  deriving DecidableEq, Repr

/-- The method `reflect.Value.IsValid`. -/
def isValid : Handle → Src → Bool
  | .direct, .null => false
  | _, _ => true

/-- The method `reflect.Value.IsZero` on a valid value. An `Interface` value is
zero when it holds nil; a concrete value is zero when it is the zero value of
its type (the parser's slices and maps are never nil). -/
def isZero : Handle → Src → Bool
  | .elem, .null => true
  | .elem, _ => false
  | .direct, .null => true
  | .direct, .bool b => !b
  | .direct, .int n => n == 0
  | .direct, .float bits => bits == 0
  | .direct, .str s => s.length == 0
  | .direct, .seq _ => false
  | .direct, .map _ _ => false

/-- The method `reflect.Value.CanInterface`: no value reached from the tree
carries the read-only flag. -/
def canInterface (_h : Handle) (_v : Src) : Bool := true

/-- The method `reflect.Value.String` on the unwrapped value: the string
itself for kind `String`, and `"<T Value>"` (no panic) for every other kind. -/
def stringOf : Src → String
  | .str s => s
  | .null => "<invalid Value>"
  | .bool _ => "<bool Value>"
  | .int _ => "<int Value>"
  | .float _ => "<float64 Value>"
  | .seq _ => "<[]interface \x7b\x7d Value>"
  | .map true _ => "<map[string]interface \x7b\x7d Value>"
  | .map false _ => "<map[interface \x7b\x7d]interface \x7b\x7d Value>"

/-- Errors returned by the package (the arguments of `fmt.Errorf`). -/
inductive Err where
  | outInvalid
  | outKind
  | notSettable
  | inInvalid
  | notInterfaceable
  | notMap
  | notArray
  | notMapForStruct
  | unknownKind
  | notPointer
  | nilPointer
  | keyNotMap (key : Src)
  | keyNotFound (key : Src)
  | noConfigFile
  | statFailed (f : String)
  | readFailed (f : String)
  | unmarshalFailed (f : String)
  deriving Repr

/-- Result of running code on a destination variable. `ok d`: returned nil,
the variable now holds `d`. `fail e d`: returned the error `e`, the variable
now holds `d`. `reject e`: returned the error `e` before any variable was
reached. `panic`: the program aborted in the `reflect` package. -/
inductive Outcome (α : Type) where
  | ok (d : α)
  | fail (e : Err) (d : α)
  | reject (e : Err)
  | panic
  deriving Repr

/-- The `out` argument of `recursiveReflection`. `ptr ro t cur` is a non-nil
pointer to a variable of type `t` holding `cur`; `ro` is the read-only flag
a pointer inherits from an unexported struct field. `nilPtr` is a nil pointer
or an interface value, whose `Elem()` cannot be set. -/
inductive OutRef where
  | invalid
  | nonPtr
  | nilPtr
  | ptr (ro : Bool) (t : Ty) (cur : DVal)
  deriving Repr

/-- The call `reflect.New(t)`. -/
def OutRef.new (t : Ty) : OutRef := .ptr false t (zero t)

/-- Elements of a slice value (none for the nil slice). -/
def DVal.elems : DVal → List DVal
  | .slice xs => xs
  | .array xs => xs
  | _ => []

/-- The statement `out.Set(reflect.Append(out, x))` on a slice variable. -/
def DVal.append (cur : DVal) (x : DVal) : DVal := .slice (cur.elems ++ [x])

/-- Entries of a map value (none for the nil map). -/
def DVal.entries : DVal → List (DVal × DVal)
  | .map es => es
  | _ => []

/-- Assignment `m[k] = v` on an association list: replaces the value of an
existing key, adds the entry otherwise. -/
def setEntry (k v : DVal) : List (DVal × DVal) → List (DVal × DVal)
  | [] => [(k, v)]
  | (k0, v0) :: es => if DVal.beq k0 k then (k, v) :: es else (k0, v0) :: setEntry k v es

/-- The call `out.SetMapIndex(k, v)` on a non-nil map variable. -/
def DVal.setMapIndex (cur : DVal) (k v : DVal) : DVal := .map (setEntry k v cur.entries)

/-- The statement `if out.IsNil() { out.Set(reflect.MakeMap(out.Type())) }`. -/
def DVal.makeMapIfNil : DVal → DVal
  | .map es => .map es
  | _ => .map []

/-- Equality of map keys of the tree (`==` on `interface{}` holding scalars). -/
def keyEq (a b : Src) : Bool := Src.beq a b

/-- The lookup key of a struct field: the `nonoconfig` tag if the field has
one, its declared name otherwise. -/
def lookupKey (f : FieldInfo) : String :=
  match f.tag with
  | some t => t
  | none => f.name

/-- The kind of the iterator key of a source map: `String` for a
`map[string]interface{}`, `Interface` otherwise. -/
def keyHandle (strKeyed : Bool) : Handle := if strKeyed then .direct else .elem

/-- The struct loop `for j := 0; j < out.NumField(); j++`, over the fields and
their current contents; `dec key out` is `in.MapIndex(key)` followed by the
recursive call when the key is present (`none` when it is absent). -/
def fieldLoop (dec : Src → OutRef → Option (Outcome DVal)) :
    List (FieldInfo × Ty) → List DVal → Outcome (List DVal)
  | [], cs => .ok cs
  | _ :: _, [] => .ok []
  | (f, t) :: fs, c :: cs =>
    match dec (.str (lookupKey f)) (.ptr (!f.exported) t c) with
    | none =>
      match fieldLoop dec fs cs with
      | .ok ds => .ok (c :: ds)
      | .fail e ds => .fail e (c :: ds)
      | .reject e => .reject e
      | .panic => .panic
    | some (.ok d) =>
      match fieldLoop dec fs cs with
      | .ok ds => .ok (d :: ds)
      | .fail e ds => .fail e (d :: ds)
      | .reject e => .reject e
      | .panic => .panic
    | some (.fail e d) => .fail e (d :: cs)
    | some (.reject e) => .fail e (c :: cs)
    | some .panic => .panic

/-! ## The decoder -/

mutual
/-- The function `recursiveReflection(in, out)`, with `in` given by its handle
and tree. -/
def recursiveReflection (cv : Float32Conv) (h : Handle) (v : Src) (out : OutRef) :
    Outcome DVal :=
  match out with
  | .invalid => .reject .outInvalid
  | .nonPtr => .reject .outKind
  | .nilPtr => .reject .notSettable
  | .ptr ro t cur =>
    if ro then .fail .notSettable cur
    else if !isValid h v then .fail .inInvalid cur
    else if isZero h v then .ok (zero t)
    else if !canInterface h v then .fail .notInterfaceable cur
    else
      match t with
      | .iface => .ok (.iface v)
      | .str => .ok (.str (stringOf v))
      | .float k =>
        match v with
        | .float bits => .ok (.float (setFloat cv k bits))
        | _ => .panic
      | .int k =>
        match v with
        | .int n => .ok (.int (wrapInt k n))
        | _ => .panic
      | .bool =>
        match v with
        | .bool b => .ok (.bool b)
        | _ => .panic
      | .map kt vt =>
        match v with
        | .map sk es => mapLoop cv sk kt vt es cur.makeMapIfNil
        | _ => .fail .notMap cur
      | .slice e =>
        match v with
        | .seq xs => seqLoop cv false e xs cur
        | _ => .fail .notArray cur
      | .array _ e =>
        match v with
        | .seq xs => seqLoop cv true e xs cur
        | _ => .fail .notArray cur
      | .struct fs =>
        match v with
        | .map _ es =>
          match cur with
          | .struct cs =>
            match fieldLoop (fun key o => lookupDecode cv es key o) fs cs with
            | .ok ds => .ok (.struct ds)
            | .fail e ds => .fail e (.struct ds)
            | .reject e => .reject e
            | .panic => .panic
          | _ => .ok cur
        | _ => .fail .notMapForStruct cur
      | .other => .fail .unknownKind cur
/-- The map loop `for iter.Next()` over the remaining source entries; `cur` is
the destination map so far. -/
def mapLoop (cv : Float32Conv) (sk : Bool) (kt vt : Ty) (es : List (Src × Src))
    (cur : DVal) : Outcome DVal :=
  match es with
  | [] => .ok cur
  | (k, x) :: rest =>
    match recursiveReflection cv (keyHandle sk) k (OutRef.new kt) with
    | .ok kd =>
      match recursiveReflection cv .elem x (OutRef.new vt) with
      | .ok vd => mapLoop cv sk kt vt rest (cur.setMapIndex kd vd)
      | .fail e _ => .fail e cur
      | .reject e => .fail e cur
      | .panic => .panic
    | .fail e _ => .fail e cur
    | .reject e => .fail e cur
    | .panic => .panic
/-- The sequence loop `for j := 0; j < in.Len(); j++` over the remaining
source elements; `cur` is the destination so far. `reflect.Append` panics
when the destination is an array (`arr`). -/
def seqLoop (cv : Float32Conv) (arr : Bool) (e : Ty) (xs : List Src) (cur : DVal) :
    Outcome DVal :=
  match xs with
  | [] => .ok cur
  | x :: rest =>
    match recursiveReflection cv .elem x (OutRef.new e) with
    | .ok d => if arr then .panic else seqLoop cv arr e rest (cur.append d)
    | .fail err _ => .fail err cur
    | .reject err => .fail err cur
    | .panic => .panic
/-- The call `r := in.MapIndex(key)` on the source entries followed, when `r`
is valid, by `recursiveReflection(r, out)`; `none` when the key is absent. -/
def lookupDecode (cv : Float32Conv) (es : List (Src × Src)) (key : Src) (out : OutRef) :
    Option (Outcome DVal) :=
  match es with
  | [] => none
  | (k, x) :: rest =>
    if keyEq k key then some (recursiveReflection cv .elem x out)
    else lookupDecode cv rest key out
end

/-! ## Files, loading and `Config` -/

/-- Result of `os.Stat` on a path, as far as `configurationFile` looks at it. -/
inductive StatResult where
  | notExist
  | failed
  | dir
  | file
  deriving DecidableEq, Repr

/-- Result of `yaml.Unmarshal(b, &ncc.c)`: whether it returned an error, and
what `ncc.c` (nil before the call) holds afterwards. -/
structure Parsed where
  err : Bool
  tree : Src

/-- The environment of a call: the file system and the external parser. -/
structure World where
  stat : String → StatResult
  readFile : String → Option String
  unmarshal : String → Parsed

/-- A file-system access. -/
inductive FsOp where
  | stat (f : String)
  | read (f : String)
  deriving DecidableEq, Repr

/-- The struct `NoNoConfig`: candidate files and the cached tree (`Src.null`
is the nil interface). -/
structure NoNoConfig where
  fs : List String
  c : Src

/-- The constructor `NewNoNoConfig(configFiles...)`. -/
def NewNoNoConfig (configFiles : List String) : NoNoConfig := { fs := configFiles, c := .null }

/-- The method `configurationFile`, over the candidates still to visit;
returns the result and the accesses made. -/
def configurationFile (w : World) : List String → Except Err String × List FsOp
  | [] => (.error .noConfigFile, [])
  | f :: rest =>
    match w.stat f with
    | .failed => (.error (.statFailed f), [.stat f])
    | .notExist => ((configurationFile w rest).1, .stat f :: (configurationFile w rest).2)
    | .dir => ((configurationFile w rest).1, .stat f :: (configurationFile w rest).2)
    | .file => (.ok f, [.stat f])

/-- Result of `updateConfig`: the returned error, the instance afterwards and
the accesses made. -/
structure Update where
  err : Option Err
  nnc : NoNoConfig
  trace : List FsOp

/-- The method `updateConfig`. -/
def updateConfig (w : World) (ncc : NoNoConfig) : Update :=
  match configurationFile w ncc.fs with
  | (.error e, tr) => { err := some e, nnc := ncc, trace := tr }
  | (.ok f, tr) =>
    match w.readFile f with
    | none => { err := some (.readFailed f), nnc := ncc, trace := tr ++ [.read f] }
    | some b =>
      { err := if (w.unmarshal b).err then some (.unmarshalFailed f) else none
        nnc := { ncc with c := (w.unmarshal b).tree }
        trace := tr ++ [.read f] }

/-- Result of `v.MapIndex(k)` in `Config`. -/
inductive Lookup where
  | panic
  | absent
  | present (v : Src)
  deriving Repr

/-- First value stored under a key equal to `key`. -/
def lookup : List (Src × Src) → Src → Option Src
  | [], _ => none
  | (k, x) :: rest, key => if keyEq k key then some x else lookup rest key

/-- The call `v.MapIndex(reflect.ValueOf(key))` on a source map. It panics when
`key` is nil, when its type is not assignable to the map's key type (a
non-string key on a `map[string]interface{}`) and when it is not hashable. -/
def mapIndex (strKeyed : Bool) (es : List (Src × Src)) (key : Src) : Lookup :=
  match key with
  | .null => .panic
  | .seq _ => .panic
  | .map _ _ => .panic
  | .str s =>
    match lookup es (.str s) with
    | some x => .present x
    | none => .absent
  | key =>
    if strKeyed then .panic
    else
      match lookup es key with
      | some x => .present x
      | none => .absent

/-- Result of the loop `// Find entry` of `Config`. -/
inductive Found where
  | panic
  | error (e : Err)
  | found (h : Handle) (v : Src)
  deriving Repr

/-- The loop `for _, key := range keys` of `Config`, from the current value
`(h, v)`. `v.Kind()` is `Map` only for a concrete map value: the result of
`MapIndex` has kind `Interface`. -/
def findEntry : Handle → Src → List Src → Found
  | h, v, [] => .found h v
  | .direct, .map sk es, key :: rest =>
    match mapIndex sk es key with
    | .panic => .panic
    | .absent => .error (.keyNotFound key)
    | .present x => findEntry .elem x rest
  | _, _, key :: _ => .error (.keyNotMap key)

/-- The `value` argument of `Config`: not a pointer (also the untyped nil), a
nil pointer, or a pointer to a variable of type `t` holding `cur`. -/
inductive Arg where
  | nonPtr
  | nilPtr
  | ptr (t : Ty) (cur : DVal)
  deriving Repr

/-- Result of a call of `Config`: the outcome on the destination variable, the
instance afterwards and the file-system accesses made, in order. -/
structure Run where
  result : Outcome DVal
  nnc : NoNoConfig
  trace : List FsOp

/-- The step `if nnc.c == nil { err := nnc.updateConfig() ... }`. -/
def ensureLoaded (w : World) (nnc : NoNoConfig) : Update :=
  match nnc.c with
  | .null => updateConfig w nnc
  | _ => { err := none, nnc := nnc, trace := [] }

/-- The method `Config(value, keys...)`. -/
def Config (cv : Float32Conv) (w : World) (nnc : NoNoConfig) (value : Arg)
    (keys : List Src) : Run :=
  match value with
  | .nonPtr => { result := .reject .notPointer, nnc := nnc, trace := [] }
  | .nilPtr => { result := .reject .nilPointer, nnc := nnc, trace := [] }
  | .ptr t cur =>
    let u := ensureLoaded w nnc
    match u.err with
    | some e => { result := .reject e, nnc := u.nnc, trace := u.trace }
    | none =>
      match findEntry .direct u.nnc.c keys with
      | .panic => { result := .panic, nnc := u.nnc, trace := u.trace }
      | .error e => { result := .reject e, nnc := u.nnc, trace := u.trace }
      | .found h v =>
        { result := recursiveReflection cv h v (.ptr false t cur)
          nnc := u.nnc
          trace := u.trace }

/-! ## Observations on a call -/

/-- The content of the variable a `value` argument points to, before the
call; `none` when the argument points to no variable. -/
def Arg.pointee : Arg → Option DVal
  | .ptr _ cur => some cur
  | _ => none

/-- The content of the destination variable when a call returns: what the
decoder left in it (`ok`, `fail`), or what it held before when the call
returned before the decoder was reached (`reject`). After a panic there is no
return. -/
def destAfter (value : Arg) : Outcome DVal → Option DVal
  | .ok d => some d
  | .fail _ d => some d
  | .reject _ => value.pointee
  | .panic => none

/-- A caller making successive calls of `Config` on one instance: each call
runs on the instance the previous call left. -/
def configCalls (cv : Float32Conv) (w : World) :
    NoNoConfig → List (Arg × List Src) → List Run
  | _, [] => []
  | nnc, (value, keys) :: rest =>
    Config cv w nnc value keys :: configCalls cv w (Config cv w nnc value keys).nnc rest

mutual
/-- Number of nodes of a source tree. -/
def Src.size : Src → Nat
  | .seq xs => 1 + Src.sizeList xs
  | .map _ es => 1 + Src.sizeEntries es
  | _ => 1
/-- Number of nodes of a list of source trees. -/
def Src.sizeList : List Src → Nat
  | [] => 0
  | x :: xs => x.size + Src.sizeList xs
/-- Number of nodes of a list of mapping entries. -/
def Src.sizeEntries : List (Src × Src) → Nat
  | [] => 0
  | (k, x) :: es => k.size + x.size + Src.sizeEntries es
end

/-- The immediate sub-values of a source tree: the elements of a sequence, the
keys and the values of a mapping. -/
def Src.children : Src → List Src
  | .seq xs => xs
  | .map _ es => es.map Prod.fst ++ es.map Prod.snd
  | _ => []

/-! ## Example environment -/

/-- A `float32` conversion used in examples: it clears the 29 low bits of the
bit pattern (the bits a `float32` mantissa cannot hold). -/
def truncConv : Float32Conv := ⟨fun b => b / 2 ^ 29 * 2 ^ 29, by decide⟩

/-- A world with a directory `conf.d` and one regular file `config.yaml`, whose
content the parser turns into `doc` without error. -/
def worldOf (doc : Src) : World where
  stat f := if f = "config.yaml" then .file else if f = "conf.d" then .dir else .notExist
  readFile f := if f = "config.yaml" then some "..." else none
  unmarshal _ := { err := false, tree := doc }

/-! ## Decidable equality -/

mutual
theorem Src.src_beq_iff : ∀ a b : Src, Src.beq a b = true ↔ a = b
  | .null, b => by cases b <;> simp [Src.beq]
  | .bool _, b => by cases b <;> simp [Src.beq]
  | .int _, b => by cases b <;> simp [Src.beq]
  | .float _, b => by cases b <;> simp [Src.beq]
  | .str _, b => by cases b <;> simp [Src.beq]
  | .seq xs, b => by cases b <;> simp [Src.beq, Src.src_beqList_iff xs]
  | .map _ es, b => by cases b <;> simp [Src.beq, Src.src_beqEntries_iff es]
theorem Src.src_beqList_iff : ∀ a b : List Src, Src.beqList a b = true ↔ a = b
  | [], b => by cases b <;> simp [Src.beqList]
  | x :: xs, b => by cases b <;> simp [Src.beqList, Src.src_beq_iff x, Src.src_beqList_iff xs]
theorem Src.src_beqEntries_iff : ∀ a b : List (Src × Src), Src.beqEntries a b = true ↔ a = b
  | [], b => by cases b <;> simp [Src.beqEntries]
  | (k, x) :: xs, b => by
      cases b with
      | nil => simp [Src.beqEntries]
      | cons p ps =>
        obtain ⟨l, y⟩ := p
        simp [Src.beqEntries, Src.src_beq_iff k, Src.src_beq_iff x, Src.src_beqEntries_iff xs, and_assoc]
end

instance : DecidableEq Src := fun a b => decidable_of_iff _ (Src.src_beq_iff a b)

mutual
theorem DVal.dval_beq_iff : ∀ a b : DVal, DVal.beq a b = true ↔ a = b
  | .iface _, b => by cases b <;> simp [DVal.beq, Src.src_beq_iff]
  | .str _, b => by cases b <;> simp [DVal.beq]
  | .bool _, b => by cases b <;> simp [DVal.beq]
  | .int _, b => by cases b <;> simp [DVal.beq]
  | .float _, b => by cases b <;> simp [DVal.beq]
  | .nilSlice, b => by cases b <;> simp [DVal.beq]
  | .slice xs, b => by cases b <;> simp [DVal.beq, DVal.dval_beqList_iff xs]
  | .array xs, b => by cases b <;> simp [DVal.beq, DVal.dval_beqList_iff xs]
  | .nilMap, b => by cases b <;> simp [DVal.beq]
  | .map es, b => by cases b <;> simp [DVal.beq, DVal.dval_beqEntries_iff es]
  | .struct xs, b => by cases b <;> simp [DVal.beq, DVal.dval_beqList_iff xs]
  | .other _, b => by cases b <;> simp [DVal.beq]
theorem DVal.dval_beqList_iff : ∀ a b : List DVal, DVal.beqList a b = true ↔ a = b
  | [], b => by cases b <;> simp [DVal.beqList]
  | x :: xs, b => by cases b <;> simp [DVal.beqList, DVal.dval_beq_iff x, DVal.dval_beqList_iff xs]
theorem DVal.dval_beqEntries_iff :
    ∀ a b : List (DVal × DVal), DVal.beqEntries a b = true ↔ a = b
  | [], b => by cases b <;> simp [DVal.beqEntries]
  | (k, x) :: xs, b => by
      cases b with
      | nil => simp [DVal.beqEntries]
      | cons p ps =>
        obtain ⟨l, y⟩ := p
        simp [DVal.beqEntries, DVal.dval_beq_iff k, DVal.dval_beq_iff x, DVal.dval_beqEntries_iff xs,
          and_assoc]
end

instance : DecidableEq DVal := fun a b => decidable_of_iff _ (DVal.dval_beq_iff a b)

deriving instance DecidableEq for Err, Outcome, Lookup, Found

/-! ## Basic facts -/

theorem wrapInt_zero (k : IntKind) : wrapInt k 0 = 0 := by
  cases k <;> decide

theorem wrapInt_eq_self_iff (k : IntKind) (n : Int) :
    wrapInt k n = n ↔ -(2 ^ (k.bits - 1)) ≤ n ∧ n < 2 ^ (k.bits - 1) := by
  cases k <;> simp only [wrapInt, IntKind.bits] <;> norm_num <;> split <;> omega

theorem str_of_length_zero (s : String) (h : (s.length == 0) = true) : s = "" := by
  have h0 : s.length = 0 := by simpa using h
  cases s with
  | mk data =>
    have : data = [] := by simpa [String.length] using h0
    rw [this]

set_option maxHeartbeats 1000000 in
/-- Unfolding of `recursiveReflection` on a settable pointer. -/
theorem recursiveReflection_ptr (cv : Float32Conv) (h : Handle) (v : Src) (t : Ty)
    (cur : DVal) :
    recursiveReflection cv h v (.ptr false t cur) =
      if isValid h v = false then .fail .inInvalid cur
      else if isZero h v = true then .ok (zero t)
      else
        match t with
        | .iface => .ok (.iface v)
        | .str => .ok (.str (stringOf v))
        | .float k =>
          match v with
          | .float bits => .ok (.float (setFloat cv k bits))
          | _ => .panic
        | .int k =>
          match v with
          | .int n => .ok (.int (wrapInt k n))
          | _ => .panic
        | .bool =>
          match v with
          | .bool b => .ok (.bool b)
          | _ => .panic
        | .map kt vt =>
          match v with
          | .map sk es => mapLoop cv sk kt vt es cur.makeMapIfNil
          | _ => .fail .notMap cur
        | .slice e =>
          match v with
          | .seq xs => seqLoop cv false e xs cur
          | _ => .fail .notArray cur
        | .array _ e =>
          match v with
          | .seq xs => seqLoop cv true e xs cur
          | _ => .fail .notArray cur
        | .struct fs =>
          match v with
          | .map _ es =>
            match cur with
            | .struct cs =>
              match fieldLoop (fun key o => lookupDecode cv es key o) fs cs with
              | .ok ds => .ok (.struct ds)
              | .fail e ds => .fail e (.struct ds)
              | .reject e => .reject e
              | .panic => .panic
            | _ => .ok cur
          | _ => .fail .notMapForStruct cur
        | .other => .fail .unknownKind cur := by
  unfold recursiveReflection
  simp [canInterface]

theorem seqLoop_nil (cv : Float32Conv) (arr : Bool) (e : Ty) (cur : DVal) :
    seqLoop cv arr e [] cur = .ok cur := rfl

theorem seqLoop_cons (cv : Float32Conv) (arr : Bool) (e : Ty) (x : Src) (rest : List Src)
    (cur : DVal) :
    seqLoop cv arr e (x :: rest) cur =
      match recursiveReflection cv .elem x (OutRef.new e) with
      | .ok d => if arr then .panic else seqLoop cv arr e rest (cur.append d)
      | .fail err _ => .fail err cur
      | .reject err => .fail err cur
      | .panic => .panic := rfl

theorem mapLoop_nil (cv : Float32Conv) (sk : Bool) (kt vt : Ty) (cur : DVal) :
    mapLoop cv sk kt vt [] cur = .ok cur := rfl

theorem mapLoop_cons (cv : Float32Conv) (sk : Bool) (kt vt : Ty) (k x : Src)
    (rest : List (Src × Src)) (cur : DVal) :
    mapLoop cv sk kt vt ((k, x) :: rest) cur =
      match recursiveReflection cv (keyHandle sk) k (OutRef.new kt) with
      | .ok kd =>
        match recursiveReflection cv .elem x (OutRef.new vt) with
        | .ok vd => mapLoop cv sk kt vt rest (cur.setMapIndex kd vd)
        | .fail e _ => .fail e cur
        | .reject e => .fail e cur
        | .panic => .panic
      | .fail e _ => .fail e cur
      | .reject e => .fail e cur
      | .panic => .panic := rfl

/-- The fused lookup-and-decode of the struct loop is `MapIndex` followed by
the recursive call. -/
theorem lookupDecode_eq (cv : Float32Conv) (es : List (Src × Src)) (key : Src)
    (out : OutRef) :
    lookupDecode cv es key out =
      (lookup es key).map (fun r => recursiveReflection cv .elem r out) := by
  induction es with
  | nil => rfl
  | cons p rest ih =>
    obtain ⟨k, x⟩ := p
    show (if keyEq k key then some (recursiveReflection cv .elem x out)
          else lookupDecode cv rest key out) = _
    by_cases hk : keyEq k key = true
    · simp [lookup, hk]
    · simp [lookup, hk, ih]

/-- After one `MapIndex` the current value has kind `Interface`, so every
further key is answered with "is not a map". -/
theorem findEntry_elem_cons (v : Src) (key : Src) (rest : List Src) :
    findEntry .elem v (key :: rest) = .error (.keyNotMap key) := by
  cases v <;> rfl

/-- A path of two or more keys is never resolved. -/
theorem findEntry_two_keys (h : Handle) (v : Src) (k1 k2 : Src) (rest : List Src)
    (h' : Handle) (v' : Src) : findEntry h v (k1 :: k2 :: rest) ≠ .found h' v' := by
  cases h
  · cases v <;> try (simp [findEntry]; done)
    rename_i sk es
    simp only [findEntry]
    cases mapIndex sk es k1 <;> simp [findEntry_elem_cons]
  · simp [findEntry_elem_cons]

/-! ## Path resolution (C1) -/

/-- C1 (code defect): on the document `a: {b: 1}` the root is a mapping
containing `a` and its value is a mapping containing `b`, yet
`Config(&x, "a", "b")` with an `any` destination does not locate the
sub-tree `1`: it returns the error "key b is not a map" after having loaded
the document, and nothing is decoded. The same happens on every tree: the key
loop never resolves a path of two or more keys. -/
theorem Config_nested_path_not_a_map :
    lookup [(Src.str "a", Src.map true [(.str "b", .int 1)])] (.str "a")
        = some (.map true [(.str "b", .int 1)]) ∧
      lookup [(Src.str "b", Src.int 1)] (.str "b") = some (.int 1) ∧
      (Config truncConv (worldOf (.map true [(.str "a", .map true [(.str "b", .int 1)])]))
        (NewNoNoConfig ["config.yaml"]) (.ptr .iface (.iface .null))
        [.str "a", .str "b"]).result = .reject (.keyNotMap (.str "b")) ∧
      (∀ (h : Handle) (v k1 k2 : Src) (rest : List Src) (h' : Handle) (v' : Src),
        findEntry h v (k1 :: k2 :: rest) ≠ .found h' v') :=
  ⟨by decide, by decide, by decide, findEntry_two_keys⟩

/-! ## Scalars (C2) -/

/-- C2: a string, integer, floating-point or boolean source decoded into a
settable destination of the matching kind succeeds, whatever the handle (document
root, container element) and the previous content. The destination then holds
the source string, the source integer narrowed to the destination width (the
source itself exactly when it fits the width), the source float (converted to
`float32` for a `float32` destination), the source boolean. -/
theorem scalar_decoding (cv : Float32Conv) (h : Handle) (cur : DVal) :
    (∀ s, recursiveReflection cv h (.str s) (.ptr false .str cur) = .ok (.str s)) ∧
    (∀ k n, recursiveReflection cv h (.int n) (.ptr false (.int k) cur)
        = .ok (.int (wrapInt k n))) ∧
    (∀ k n, wrapInt k n = n ↔ -(2 ^ (k.bits - 1)) ≤ n ∧ n < 2 ^ (k.bits - 1)) ∧
    (∀ b, recursiveReflection cv h (.float b) (.ptr false (.float .float64) cur)
        = .ok (.float b)) ∧
    (∀ b, recursiveReflection cv h (.float b) (.ptr false (.float .float32) cur)
        = .ok (.float (cv.conv b))) ∧
    (∀ b, recursiveReflection cv h (.bool b) (.ptr false .bool cur) = .ok (.bool b)) := by
  refine ⟨?_, ?_, wrapInt_eq_self_iff, ?_, ?_, ?_⟩
  · intro s
    rw [recursiveReflection_ptr]
    cases h
    · by_cases hz : (s.length == 0) = true
      · simp [isValid, isZero, hz, zero, str_of_length_zero s hz]
      · simp [isValid, isZero, hz, stringOf]
    · simp [isValid, isZero, stringOf]
  · intro k n
    rw [recursiveReflection_ptr]
    cases h
    · by_cases hz : n = 0
      · simp [isValid, isZero, hz, zero, wrapInt_zero]
      · simp [isValid, isZero, hz]
    · simp [isValid, isZero]
  · intro b
    rw [recursiveReflection_ptr]
    cases h
    · by_cases hz : b = 0
      · simp [isValid, isZero, hz, zero, setFloat]
      · simp [isValid, isZero, hz, setFloat]
    · simp [isValid, isZero, setFloat]
  · intro b
    rw [recursiveReflection_ptr]
    cases h
    · by_cases hz : b = 0
      · simp [isValid, isZero, hz, zero, setFloat, cv.conv_zero]
      · simp [isValid, isZero, hz, setFloat]
    · simp [isValid, isZero, setFloat]
  · intro b
    rw [recursiveReflection_ptr]
    cases h <;> cases b <;> simp [isValid, isZero, zero]

/-! ## Sequences (C3) -/

theorem DVal.elems_append (cur d : DVal) : (cur.append d).elems = cur.elems ++ [d] := rfl

/-- When every element decodes, the slice loop appends the decoded elements,
in order, to the destination. -/
theorem seqLoop_ok (cv : Float32Conv) (e : Ty) (xs : List Src) (ds : List DVal)
    (hds : List.Forall₂ (fun x d => recursiveReflection cv .elem x (OutRef.new e) = .ok d) xs ds)
    (cur : DVal) :
    seqLoop cv false e xs cur = .ok (if ds = [] then cur else .slice (cur.elems ++ ds)) := by
  induction hds generalizing cur with
  | nil => simp [seqLoop_nil]
  | @cons x d xs ds hx _ ih =>
    rw [seqLoop_cons, hx]
    simp only [Bool.false_eq_true, if_false]
    rw [ih]
    by_cases hd : ds = []
    · simp [hd, DVal.append]
    · simp [hd, DVal.elems_append]

theorem exists_forall₂_of_forall_exists {α β : Type} (R : α → β → Prop) (xs : List α)
    (h : ∀ x ∈ xs, ∃ d, R x d) : ∃ ds, List.Forall₂ R xs ds := by
  induction xs with
  | nil => exact ⟨[], .nil⟩
  | cons x xs ih =>
    obtain ⟨d, hd⟩ := h x (List.mem_cons_self _ _)
    obtain ⟨ds, hds⟩ := ih (fun y hy => h y (List.mem_cons_of_mem _ hy))
    exact ⟨d :: ds, .cons hd hds⟩

theorem forall₂_getElem? {α β : Type} (R : α → β → Prop) (xs : List α) (ds : List β)
    (h : List.Forall₂ R xs ds) (i : Nat) (x : α) (hx : xs[i]? = some x) :
    ∃ d, ds[i]? = some d ∧ R x d := by
  induction h generalizing i with
  | nil => simp at hx
  | @cons a b l₁ l₂ hab _ ih =>
    cases i with
    | zero =>
      simp at hx
      subst hx
      exact ⟨b, by simp, hab⟩
    | succ j =>
      simp at hx
      simpa using ih j hx

/-- C3: when every element of a source sequence decodes into the element type,
decoding the sequence into an empty (nil or zero-length) slice succeeds; the
result has the length of the source and its i-th element is the result of
decoding the i-th source element into a fresh variable of the element type. -/
theorem sequence_decoding (cv : Float32Conv) (h : Handle) (e : Ty) (xs : List Src)
    (cur : DVal) (hcur : cur = .nilSlice ∨ cur = .slice [])
    (hdec : ∀ x ∈ xs, ∃ d, recursiveReflection cv .elem x (OutRef.new e) = .ok d) :
    ∃ out, recursiveReflection cv h (.seq xs) (.ptr false (.slice e) cur) = .ok out ∧
      out.elems.length = xs.length ∧
      ∀ (i : Nat) (x : Src), xs[i]? = some x →
        ∃ d, out.elems[i]? = some d ∧
          recursiveReflection cv .elem x (OutRef.new e) = .ok d := by
  obtain ⟨ds, hds⟩ := exists_forall₂_of_forall_exists _ xs hdec
  have hstep : recursiveReflection cv h (.seq xs) (.ptr false (.slice e) cur)
      = seqLoop cv false e xs cur := by
    rw [recursiveReflection_ptr]
    cases h <;> simp [isValid, isZero]
  have helems : (if ds = [] then cur else DVal.slice (cur.elems ++ ds)).elems = ds := by
    by_cases hd : ds = []
    · rcases hcur with rfl | rfl <;> simp [hd, DVal.elems]
    · rcases hcur with rfl | rfl <;> simp [hd, DVal.elems]
  refine ⟨_, by rw [hstep, seqLoop_ok cv e xs ds hds], ?_, ?_⟩
  · rw [helems]; exact hds.length_eq.symm
  · intro i x hx
    rw [helems]
    exact forall₂_getElem? _ xs ds hds i x hx

/-- Witness for `sequence_decoding`: the sequence `[first, second, third]` into
an empty slice of strings. -/
theorem sequence_decoding_witness :
    ∃ out, recursiveReflection truncConv .elem (.seq [.str "first", .str "second", .str "third"])
        (.ptr false (.slice .str) (.slice [])) = .ok out ∧
      out.elems.length = [Src.str "first", Src.str "second", Src.str "third"].length ∧
      ∀ (i : Nat) (x : Src), [Src.str "first", Src.str "second", Src.str "third"][i]? = some x →
        ∃ d, out.elems[i]? = some d ∧
          recursiveReflection truncConv .elem x (OutRef.new .str) = .ok d :=
  sequence_decoding truncConv .elem .str [.str "first", .str "second", .str "third"]
    (.slice []) (Or.inr rfl) (by
      intro x hx
      simp only [List.mem_cons, List.mem_singleton, List.not_mem_nil, or_false] at hx
      rcases hx with rfl | rfl | rfl <;> exact ⟨_, rfl⟩)

/-! ## Mappings (C4) -/

theorem setEntry_of_not_mem (k v : DVal) (es : List (DVal × DVal))
    (hk : k ∉ es.map Prod.fst) : setEntry k v es = es ++ [(k, v)] := by
  induction es with
  | nil => rfl
  | cons p rest ih =>
    obtain ⟨k0, v0⟩ := p
    simp only [List.map_cons, List.mem_cons, not_or] at hk
    have hne : DVal.beq k0 k = false := by
      cases hb : DVal.beq k0 k with
      | false => rfl
      | true => exact absurd ((DVal.dval_beq_iff k0 k).mp hb).symm hk.1
    simp [setEntry, hne, ih hk.2]

/-- When every key and value decodes and the decoded keys are new and
pairwise distinct, the map loop adds the decoded entries, in order. -/
theorem mapLoop_ok (cv : Float32Conv) (sk : Bool) (kt vt : Ty) (es : List (Src × Src))
    (qs : List (DVal × DVal))
    (hqs : List.Forall₂ (fun p q =>
      recursiveReflection cv (keyHandle sk) p.1 (OutRef.new kt) = .ok q.1 ∧
      recursiveReflection cv .elem p.2 (OutRef.new vt) = .ok q.2) es qs)
    (acc : List (DVal × DVal)) (hnd : (acc.map Prod.fst ++ qs.map Prod.fst).Nodup) :
    mapLoop cv sk kt vt es (.map acc) = .ok (.map (acc ++ qs)) := by
  induction hqs generalizing acc with
  | nil => simp [mapLoop_nil]
  | @cons p q es qs hpq _ ih =>
    obtain ⟨k, x⟩ := p
    obtain ⟨kd, vd⟩ := q
    rw [mapLoop_cons, hpq.1, hpq.2]
    have hnew : kd ∉ acc.map Prod.fst := by
      intro hmem
      have := List.nodup_append.mp hnd
      exact this.2.2 hmem (by simp)
    simp only [DVal.setMapIndex, DVal.entries, setEntry_of_not_mem kd vd acc hnew]
    rw [ih (acc ++ [(kd, vd)]) (by simpa [List.append_assoc] using hnd)]
    simp

theorem forall₂_mem_right {α β : Type} (R : α → β → Prop) (xs : List α) (ds : List β)
    (h : List.Forall₂ R xs ds) (d : β) (hd : d ∈ ds) : ∃ x ∈ xs, R x d := by
  induction h with
  | nil => simp at hd
  | @cons a b l₁ l₂ hab _ ih =>
    rcases List.mem_cons.mp hd with rfl | hd'
    · exact ⟨a, List.mem_cons_self _ _, hab⟩
    · obtain ⟨x, hx, hr⟩ := ih hd'
      exact ⟨x, List.mem_cons_of_mem _ hx, hr⟩

/-- C4 (amended): when every key and every value of a source mapping decodes
and the decoded keys are pairwise distinct, decoding into a nil or empty map
succeeds and yields a non-nil map with as many entries as the source, holding
for each source pair `(k, v)` the entry `decode k -> decode v`. -/
theorem mapping_decoding (cv : Float32Conv) (h : Handle) (sk : Bool) (kt vt : Ty)
    (es : List (Src × Src)) (cur : DVal) (hcur : cur = .nilMap ∨ cur = .map [])
    (hdec : ∀ p ∈ es, ∃ kd vd,
      recursiveReflection cv (keyHandle sk) p.1 (OutRef.new kt) = .ok kd ∧
      recursiveReflection cv .elem p.2 (OutRef.new vt) = .ok vd)
    (hdist : es.Pairwise (fun p q => ∀ kd,
      recursiveReflection cv (keyHandle sk) p.1 (OutRef.new kt) = .ok kd →
      recursiveReflection cv (keyHandle sk) q.1 (OutRef.new kt) ≠ .ok kd)) :
    ∃ out, recursiveReflection cv h (.map sk es) (.ptr false (.map kt vt) cur)
        = .ok (.map out) ∧
      out.length = es.length ∧
      (out.map Prod.fst).Nodup ∧
      List.Forall₂ (fun p q =>
        recursiveReflection cv (keyHandle sk) p.1 (OutRef.new kt) = .ok q.1 ∧
        recursiveReflection cv .elem p.2 (OutRef.new vt) = .ok q.2) es out := by
  have hdec' : ∀ p ∈ es, ∃ q : DVal × DVal,
      recursiveReflection cv (keyHandle sk) p.1 (OutRef.new kt) = .ok q.1 ∧
      recursiveReflection cv .elem p.2 (OutRef.new vt) = .ok q.2 := by
    intro p hp
    obtain ⟨kd, vd, h1, h2⟩ := hdec p hp
    exact ⟨(kd, vd), h1, h2⟩
  obtain ⟨qs, hqs⟩ := exists_forall₂_of_forall_exists _ es hdec'
  have hnd : (qs.map Prod.fst).Nodup := by
    clear hdec hdec'
    induction hqs with
    | nil => simp
    | @cons p q es qs hpq hrest ih =>
      rw [List.pairwise_cons] at hdist
      rw [List.map_cons, List.nodup_cons]
      refine ⟨?_, ih hdist.2⟩
      intro hmem
      obtain ⟨q', hq', hfst⟩ := List.mem_map.mp hmem
      obtain ⟨p', hp', hr⟩ := forall₂_mem_right _ es qs hrest q' hq'
      exact hdist.1 p' hp' q.1 hpq.1 (by rw [hr.1, hfst])
  have hstep : recursiveReflection cv h (.map sk es) (.ptr false (.map kt vt) cur)
      = mapLoop cv sk kt vt es (.map []) := by
    rw [recursiveReflection_ptr]
    rcases hcur with rfl | rfl <;> cases h <;> simp [isValid, isZero, DVal.makeMapIfNil]
  refine ⟨qs, ?_, hqs.length_eq.symm, hnd, hqs⟩
  rw [hstep, mapLoop_ok cv sk kt vt es qs hqs [] (by simpa using hnd)]
  simp

/-- Witness for `mapping_decoding`: `{first: 1, second: 2}` into a nil
`map[string]int`. -/
theorem mapping_decoding_witness :
    ∃ out, recursiveReflection truncConv .elem
        (.map true [(.str "first", .int 1), (.str "second", .int 2)])
        (.ptr false (.map .str (.int .int)) .nilMap) = .ok (.map out) ∧
      out.length = [(Src.str "first", Src.int 1), (Src.str "second", Src.int 2)].length ∧
      (out.map Prod.fst).Nodup ∧
      List.Forall₂ (fun p q =>
        recursiveReflection truncConv (keyHandle true) p.1 (OutRef.new .str) = .ok q.1 ∧
        recursiveReflection truncConv .elem p.2 (OutRef.new (.int .int)) = .ok q.2)
        [(Src.str "first", Src.int 1), (Src.str "second", Src.int 2)] out :=
  mapping_decoding truncConv .elem true .str (.int .int)
    [(.str "first", .int 1), (.str "second", .int 2)] .nilMap (Or.inl rfl)
    (by
      intro p hp
      simp only [List.mem_cons, List.mem_singleton, List.not_mem_nil, or_false] at hp
      rcases hp with rfl | rfl <;> exact ⟨_, _, rfl, rfl⟩)
    (by
      refine List.Pairwise.cons ?_ (List.Pairwise.cons ?_ List.Pairwise.nil)
      · intro q hq kd hkd
        simp only [List.mem_singleton] at hq
        subst hq
        have : kd = .str "first" := by
          have h1 : recursiveReflection truncConv (keyHandle true) (Src.str "first")
              (OutRef.new .str) = .ok (.str "first") := rfl
          rw [h1] at hkd
          exact (Outcome.ok.inj hkd).symm
        subst this
        decide
      · intro q hq
        simp at hq)

/-- C4 (counterexample): the mapping `{1: a, 257: b}` decoded into a nil
`map[int8]string`. Every key and every value decodes, and decoding succeeds,
but both keys narrow to `1`: the result has one entry, not two, and does not
hold the entry `1 -> a`. -/
theorem mapping_decoding_key_collision :
    recursiveReflection truncConv (keyHandle false) (.int 1) (OutRef.new (.int .int8))
        = .ok (.int 1) ∧
      recursiveReflection truncConv (keyHandle false) (.int 257) (OutRef.new (.int .int8))
        = .ok (.int 1) ∧
      recursiveReflection truncConv .elem (.str "a") (OutRef.new .str) = .ok (.str "a") ∧
      recursiveReflection truncConv .elem (.str "b") (OutRef.new .str) = .ok (.str "b") ∧
      recursiveReflection truncConv .elem
          (.map false [(.int 1, .str "a"), (.int 257, .str "b")])
          (.ptr false (.map (.int .int8) .str) .nilMap)
        = .ok (.map [(.int 1, .str "b")]) ∧
      [(DVal.int 1, DVal.str "b")].length
        ≠ [(Src.int 1, Src.str "a"), (Src.int 257, Src.str "b")].length ∧
      (DVal.int 1, DVal.str "a") ∉ [(DVal.int 1, DVal.str "b")] := by
  decide

/-! ## Records (C5) -/

/-- The struct loop sees the source only through the decoder of each field's
lookup key. -/
theorem fieldLoop_congr (dec dec' : Src → OutRef → Option (Outcome DVal))
    (fs : List (FieldInfo × Ty))
    (hdec : ∀ p ∈ fs, ∀ o, dec (.str (lookupKey p.1)) o = dec' (.str (lookupKey p.1)) o)
    (cs : List DVal) : fieldLoop dec fs cs = fieldLoop dec' fs cs := by
  induction fs generalizing cs with
  | nil => cases cs <;> rfl
  | cons p fs ih =>
    obtain ⟨f, t⟩ := p
    cases cs with
    | nil => rfl
    | cons c cs =>
      have h1 := hdec (f, t) (List.mem_cons_self _ _) (.ptr (!f.exported) t c)
      have h2 := ih (fun q hq => hdec q (List.mem_cons_of_mem _ hq)) cs
      simp only [fieldLoop, h1, h2]

/-- Characterisation of a successful struct loop, field by field. -/
theorem fieldLoop_ok_iff (dec : Src → OutRef → Option (Outcome DVal))
    (fs : List (FieldInfo × Ty)) (cs : List DVal) (hlen : cs.length = fs.length)
    (ds : List DVal) :
    fieldLoop dec fs cs = .ok ds ↔
      List.Forall₂ (fun (p : (FieldInfo × Ty) × DVal) d =>
        match dec (.str (lookupKey p.1.1)) (.ptr (!p.1.1.exported) p.1.2 p.2) with
        | none => d = p.2
        | some r => r = .ok d) (fs.zip cs) ds := by
  induction fs generalizing cs ds with
  | nil =>
    cases cs with
    | nil => simp [fieldLoop, eq_comm]
    | cons c cs => simp at hlen
  | cons p fs ih =>
    obtain ⟨f, t⟩ := p
    cases cs with
    | nil => simp at hlen
    | cons c cs =>
      have hlen' : cs.length = fs.length := by simpa using hlen
      simp only [List.zip_cons_cons, List.forall₂_cons_left_iff, fieldLoop]
      cases hd : dec (.str (lookupKey f)) (.ptr (!f.exported) t c) with
      | none =>
        simp only []
        cases hrest : fieldLoop dec fs cs with
        | ok ds' =>
          simp only [Outcome.ok.injEq]
          constructor
          · rintro rfl
            exact ⟨c, ds', rfl, (ih cs hlen' ds').mp hrest, rfl⟩
          · rintro ⟨d, ds'', hd', hf, rfl⟩
            subst hd'
            have := (ih cs hlen' ds'').mpr hf
            rw [hrest] at this
            rw [Outcome.ok.inj this]
        | fail e ds' =>
          simp only [false_iff, reduceCtorEq]
          rintro ⟨d, ds'', _, hf, _⟩
          have := (ih cs hlen' ds'').mpr hf
          rw [hrest] at this
          cases this
        | reject e =>
          simp only [false_iff, reduceCtorEq]
          rintro ⟨d, ds'', _, hf, _⟩
          have := (ih cs hlen' ds'').mpr hf
          rw [hrest] at this
          cases this
        | panic =>
          simp only [false_iff, reduceCtorEq]
          rintro ⟨d, ds'', _, hf, _⟩
          have := (ih cs hlen' ds'').mpr hf
          rw [hrest] at this
          cases this
      | some r =>
        cases r with
        | ok d0 =>
          simp only [Outcome.ok.injEq, Option.some.injEq]
          cases hrest : fieldLoop dec fs cs with
          | ok ds' =>
            simp only [Outcome.ok.injEq]
            constructor
            · rintro rfl
              exact ⟨d0, ds', rfl, (ih cs hlen' ds').mp hrest, rfl⟩
            · rintro ⟨d, ds'', hd', hf, rfl⟩
              subst hd'
              have := (ih cs hlen' ds'').mpr hf
              rw [hrest] at this
              rw [Outcome.ok.inj this]
          | fail e ds' =>
            simp only [false_iff, reduceCtorEq]
            rintro ⟨d, ds'', _, hf, _⟩
            have := (ih cs hlen' ds'').mpr hf
            rw [hrest] at this
            cases this
          | reject e =>
            simp only [false_iff, reduceCtorEq]
            rintro ⟨d, ds'', _, hf, _⟩
            have := (ih cs hlen' ds'').mpr hf
            rw [hrest] at this
            cases this
          | panic =>
            simp only [false_iff, reduceCtorEq]
            rintro ⟨d, ds'', _, hf, _⟩
            have := (ih cs hlen' ds'').mpr hf
            rw [hrest] at this
            cases this
        | fail e d0 => simp
        | reject e => simp
        | panic => simp

theorem forall₂_mem_left {α β : Type} (R : α → β → Prop) (xs : List α) (ds : List β)
    (h : List.Forall₂ R xs ds) (x : α) (hx : x ∈ xs) : ∃ d, R x d := by
  induction h with
  | nil => simp at hx
  | @cons a b l₁ l₂ hab _ ih =>
    rcases List.mem_cons.mp hx with rfl | hx'
    · exact ⟨b, hab⟩
    · exact ih hx'

/-- Decoding a source mapping into a struct runs the struct loop. -/
theorem recursiveReflection_struct (cv : Float32Conv) (h : Handle) (sk : Bool)
    (es : List (Src × Src)) (fs : List (FieldInfo × Ty)) (cs : List DVal) :
    recursiveReflection cv h (.map sk es) (.ptr false (.struct fs) (.struct cs)) =
      match fieldLoop (fun key o => lookupDecode cv es key o) fs cs with
      | .ok ds => .ok (.struct ds)
      | .fail e ds => .fail e (.struct ds)
      | .reject e => .reject e
      | .panic => .panic := by
  rw [recursiveReflection_ptr]
  cases h <;> simp [isValid, isZero]

/-- C5: decoding a source mapping into a struct whose fields `fs` hold `cs`.
The lookup key of a field is its `nonoconfig` tag if it has one, its declared
name otherwise. Decoding succeeds exactly when, for every field whose lookup
key is present in the source, the recursive decode of the value stored under
that key into the field succeeds. On success the result is the struct in
which every such field holds that decoded value and every field whose lookup
key is absent holds what it held before. The outcome depends on the source
only through the values stored under the fields' lookup keys, so other source
entries have no effect. -/
theorem record_decoding (cv : Float32Conv) (h : Handle) (sk : Bool) (es : List (Src × Src))
    (fs : List (FieldInfo × Ty)) (cs : List DVal) (hlen : cs.length = fs.length) :
    (∀ f : FieldInfo, lookupKey f = f.tag.getD f.name) ∧
    ((∃ d, recursiveReflection cv h (.map sk es) (.ptr false (.struct fs) (.struct cs))
        = .ok d) ↔
      ∀ p ∈ fs.zip cs, ∀ r, lookup es (.str (lookupKey p.1.1)) = some r →
        ∃ d, recursiveReflection cv .elem r (.ptr (!p.1.1.exported) p.1.2 p.2) = .ok d) ∧
    (∀ d, recursiveReflection cv h (.map sk es) (.ptr false (.struct fs) (.struct cs))
        = .ok d ↔
      ∃ ds, d = .struct ds ∧
        List.Forall₂ (fun (p : (FieldInfo × Ty) × DVal) d' =>
          match lookup es (.str (lookupKey p.1.1)) with
          | none => d' = p.2
          | some r =>
            recursiveReflection cv .elem r (.ptr (!p.1.1.exported) p.1.2 p.2) = .ok d')
          (fs.zip cs) ds) ∧
    (∀ sk' es', (∀ p ∈ fs, lookup es' (.str (lookupKey p.1)) = lookup es (.str (lookupKey p.1))) →
      recursiveReflection cv h (.map sk' es') (.ptr false (.struct fs) (.struct cs)) =
        recursiveReflection cv h (.map sk es) (.ptr false (.struct fs) (.struct cs))) := by
  have hpred : (fun (p : (FieldInfo × Ty) × DVal) (d' : DVal) =>
        match (fun key o => lookupDecode cv es key o) (Src.str (lookupKey p.1.1))
            (OutRef.ptr (!p.1.1.exported) p.1.2 p.2) with
        | none => d' = p.2
        | some r => r = Outcome.ok d') =
      (fun (p : (FieldInfo × Ty) × DVal) (d' : DVal) =>
        match lookup es (.str (lookupKey p.1.1)) with
        | none => d' = p.2
        | some r =>
          recursiveReflection cv .elem r (.ptr (!p.1.1.exported) p.1.2 p.2) = Outcome.ok d') := by
    funext p d'
    simp only [lookupDecode_eq]
    cases lookup es (.str (lookupKey p.1.1)) <;> rfl
  have hok : ∀ d, recursiveReflection cv h (.map sk es) (.ptr false (.struct fs) (.struct cs))
        = .ok d ↔
      ∃ ds, d = .struct ds ∧
        List.Forall₂ (fun (p : (FieldInfo × Ty) × DVal) d' =>
          match lookup es (.str (lookupKey p.1.1)) with
          | none => d' = p.2
          | some r =>
            recursiveReflection cv .elem r (.ptr (!p.1.1.exported) p.1.2 p.2) = .ok d')
          (fs.zip cs) ds := by
    intro d
    rw [recursiveReflection_struct, ← hpred]
    cases hrun : fieldLoop (fun key o => lookupDecode cv es key o) fs cs with
    | ok ds =>
      simp only [Outcome.ok.injEq]
      constructor
      · rintro rfl
        exact ⟨ds, rfl, (fieldLoop_ok_iff _ fs cs hlen ds).mp hrun⟩
      · rintro ⟨ds', rfl, hf⟩
        have := (fieldLoop_ok_iff _ fs cs hlen ds').mpr hf
        rw [hrun] at this
        rw [Outcome.ok.inj this]
    | fail e ds =>
      simp only [false_iff, reduceCtorEq]
      rintro ⟨ds', _, hf⟩
      have := (fieldLoop_ok_iff _ fs cs hlen ds').mpr hf
      rw [hrun] at this
      cases this
    | reject e =>
      simp only [false_iff, reduceCtorEq]
      rintro ⟨ds', _, hf⟩
      have := (fieldLoop_ok_iff _ fs cs hlen ds').mpr hf
      rw [hrun] at this
      cases this
    | panic =>
      simp only [false_iff, reduceCtorEq]
      rintro ⟨ds', _, hf⟩
      have := (fieldLoop_ok_iff _ fs cs hlen ds').mpr hf
      rw [hrun] at this
      cases this
  refine ⟨?_, ?_, hok, ?_⟩
  · intro f
    cases f with
    | mk name tag exported => cases tag <;> rfl
  · constructor
    · rintro ⟨d, hd⟩ p hp r hr
      obtain ⟨ds, _, hf⟩ := (hok d).mp hd
      obtain ⟨d', hd'⟩ := forall₂_mem_left _ _ _ hf p hp
      rw [hr] at hd'
      exact ⟨d', hd'⟩
    · intro hall
      have hex : ∀ p ∈ fs.zip cs, ∃ d',
          (match lookup es (.str (lookupKey p.1.1)) with
          | none => d' = p.2
          | some r =>
            recursiveReflection cv .elem r (.ptr (!p.1.1.exported) p.1.2 p.2) = .ok d') := by
        intro p hp
        cases hl : lookup es (.str (lookupKey p.1.1)) with
        | none => exact ⟨p.2, rfl⟩
        | some r => exact hall p hp r hl
      obtain ⟨ds, hds⟩ := exists_forall₂_of_forall_exists _ (fs.zip cs) hex
      exact ⟨.struct ds, (hok _).mpr ⟨ds, rfl, hds⟩⟩
  · intro sk' es' hsame
    rw [recursiveReflection_struct, recursiveReflection_struct]
    rw [fieldLoop_congr (fun key o => lookupDecode cv es' key o)
      (fun key o => lookupDecode cv es key o) fs
      (by intro p hp o; simp only [lookupDecode_eq, hsame p hp]) cs]

/-- Witness for `record_decoding`: the mapping
`{MatchFieldName: true, need_a_tag: true, extra: 1}` into a struct with the
fields `MatchFieldName bool`, `NeedATag bool` tagged `need_a_tag` and
`Missing int` holding 7. -/
theorem record_decoding_witness :
    [DVal.bool false, DVal.bool false, DVal.int 7].length =
        [((⟨"MatchFieldName", none, true⟩ : FieldInfo), Ty.bool),
          (⟨"NeedATag", some "need_a_tag", true⟩, Ty.bool),
          (⟨"Missing", none, true⟩, Ty.int .int)].length ∧
      ∃ d, recursiveReflection truncConv .elem
        (.map true [(.str "MatchFieldName", .bool true), (.str "need_a_tag", .bool true),
          (.str "extra", .int 1)])
        (.ptr false
          (.struct [(⟨"MatchFieldName", none, true⟩, .bool),
            (⟨"NeedATag", some "need_a_tag", true⟩, .bool),
            (⟨"Missing", none, true⟩, .int .int)])
          (.struct [.bool false, .bool false, .int 7])) = .ok d :=
  ⟨rfl, ((record_decoding truncConv .elem true
      [(.str "MatchFieldName", .bool true), (.str "need_a_tag", .bool true),
        (.str "extra", .int 1)]
      [(⟨"MatchFieldName", none, true⟩, .bool),
        (⟨"NeedATag", some "need_a_tag", true⟩, .bool),
        (⟨"Missing", none, true⟩, .int .int)]
      [.bool false, .bool false, .int 7] rfl).2.2.1
      (.struct [.bool true, .bool true, .int 7])).mpr
    ⟨[.bool true, .bool true, .int 7], rfl, by
      refine .cons ?_ (.cons ?_ (.cons ?_ .nil))
      · show recursiveReflection truncConv .elem (.bool true) _ = _
        rfl
      · show recursiveReflection truncConv .elem (.bool true) _ = _
        rfl
      · show DVal.int 7 = DVal.int 7
        rfl⟩ |> fun h => ⟨_, h⟩⟩

/-! ## Null sources, numeric kinds, mismatches, path failures, destination validation (C6 to C10) -/

theorem recursiveReflection_int (cv : Float32Conv) (h : Handle) (k : IntKind) (n : Int)
    (cur : DVal) :
    recursiveReflection cv h (.int n) (.ptr false (.int k) cur) = .ok (.int (wrapInt k n)) := by
  rw [recursiveReflection_ptr]
  cases h
  · by_cases hz : n = 0
    · simp [isValid, isZero, hz, zero, wrapInt_zero]
    · simp [isValid, isZero, hz]
  · simp [isValid, isZero]

theorem recursiveReflection_float (cv : Float32Conv) (h : Handle) (k : FloatKind) (b : Nat)
    (cur : DVal) :
    recursiveReflection cv h (.float b) (.ptr false (.float k) cur)
      = .ok (.float (setFloat cv k b)) := by
  rw [recursiveReflection_ptr]
  cases h
  · by_cases hz : b = 0
    · cases k <;> simp [isValid, isZero, hz, zero, setFloat, cv.conv_zero]
    · simp [isValid, isZero, hz]
  · simp [isValid, isZero]

/-- C6 (amended): a null that is a mapping value or a sequence element (a value
of kind `Interface` holding nil) decodes into a settable destination of any type,
whatever it held before: decoding succeeds and the destination holds the zero
value of its type. -/
theorem null_element_decoding (cv : Float32Conv) (t : Ty) (cur : DVal) :
    recursiveReflection cv .elem .null (.ptr false t cur) = .ok (zero t) := by
  rw [recursiveReflection_ptr]
  simp [isValid, isZero]

/-- C6 (counterexample): a document whose root is null. `Config(&s)` with a
string destination holding "old" returns the error "input is not valid"; the
destination still holds "old", not the zero value. -/
theorem null_root_is_rejected :
    (Config truncConv (worldOf .null) (NewNoNoConfig ["config.yaml"])
        (.ptr .str (.str "old")) []).result = .fail .inInvalid (.str "old") ∧
      Outcome.fail Err.inInvalid (DVal.str "old") ≠ .ok (zero .str) := by
  decide

/-- C7 (amended): an integer source decodes into an integer destination of
every width (narrowed to the width) and a floating-point source into a
floating-point destination of every width (converted to `float32` for a
`float32` destination); decoding succeeds whatever the handle and the previous
content. -/
theorem numeric_decoding_same_family (cv : Float32Conv) (h : Handle) (cur : DVal) :
    (∀ k n, recursiveReflection cv h (.int n) (.ptr false (.int k) cur)
        = .ok (.int (wrapInt k n))) ∧
    (∀ k b, recursiveReflection cv h (.float b) (.ptr false (.float k) cur)
        = .ok (.float (setFloat cv k b))) :=
  ⟨fun k n => recursiveReflection_int cv h k n cur,
    fun k b => recursiveReflection_float cv h k b cur⟩

/-- C7 (counterexample): the integer `2` into a `float64` destination and the
float `3.0` into an `int` destination. Neither decode succeeds: `in.Float()`
and `in.Int()` panic on a source of the other kind. -/
theorem numeric_cross_family_panics :
    recursiveReflection truncConv .elem (.int 2) (.ptr false (.float .float64) (.float 0))
        = .panic ∧
      recursiveReflection truncConv .elem (.float 4613937818241073152)
        (.ptr false (.int .int) (.int 0)) = .panic ∧
      (∀ d, Outcome.panic ≠ Outcome.ok (d : DVal)) := by
  refine ⟨by decide, by decide, ?_⟩
  intro d hd
  cases hd

/-- C8 (code defect): sources whose kind does not match a scalar destination.
An integer or a boolean decoded into a string destination reports success and
stores the substituted text `"<int Value>"`, `"<bool Value>"`; a string decoded
into an integer destination and a mapping decoded into a boolean destination
panic. No error is returned in any of these cases. -/
theorem scalar_kind_mismatch_no_error :
    recursiveReflection truncConv .elem (.int 42) (.ptr false .str (.str ""))
        = .ok (.str "<int Value>") ∧
      recursiveReflection truncConv .elem (.bool true) (.ptr false .str (.str ""))
        = .ok (.str "<bool Value>") ∧
      recursiveReflection truncConv .elem (.str "x") (.ptr false (.int .int) (.int 0))
        = .panic ∧
      recursiveReflection truncConv .elem (.map true [(.str "a", .int 1)])
        (.ptr false .bool (.bool false)) = .panic := by
  decide

/-- C9 (code defect): on the document `a: {b: 1}`, `Config(&x, "a", "c")`
reaches the mapping `{b: 1}`, which lacks the key `c`, and returns "key c is
not a map" instead of "key c not found"; `Config(&x, 5)` asks a
`map[string]interface{}` for an integer key and panics in `MapIndex` instead of
returning an error. -/
theorem Config_path_failure_kinds :
    lookup [(Src.str "a", Src.map true [(.str "b", .int 1)])] (.str "a")
        = some (.map true [(.str "b", .int 1)]) ∧
      lookup [(Src.str "b", Src.int 1)] (.str "c") = none ∧
      (Config truncConv (worldOf (.map true [(.str "a", .map true [(.str "b", .int 1)])]))
        (NewNoNoConfig ["config.yaml"]) (.ptr .iface (.iface .null))
        [.str "a", .str "c"]).result = .reject (.keyNotMap (.str "c")) ∧
      lookup [(Src.str "a", Src.map true [(.str "b", .int 1)])] (.int 5) = none ∧
      (Config truncConv (worldOf (.map true [(.str "a", .map true [(.str "b", .int 1)])]))
        (NewNoNoConfig ["config.yaml"]) (.ptr .iface (.iface .null))
        [.int 5]).result = .panic := by
  decide

/-- C10: when the destination argument is not a pointer or is a nil pointer,
`Config` returns an error, makes no file-system access and leaves the instance
(candidate list and cached tree) as it was, for every instance, world and key
list. -/
theorem Config_rejects_invalid_destination_first (cv : Float32Conv) (w : World)
    (nnc : NoNoConfig) (value : Arg) (keys : List Src)
    (hvalue : value = .nonPtr ∨ value = .nilPtr) :
    (∃ e, (Config cv w nnc value keys).result = .reject e) ∧
      (Config cv w nnc value keys).trace = [] ∧
      (Config cv w nnc value keys).nnc = nnc := by
  rcases hvalue with rfl | rfl
  · exact ⟨⟨_, rfl⟩, rfl, rfl⟩
  · exact ⟨⟨_, rfl⟩, rfl, rfl⟩

/-- Witness for `Config_rejects_invalid_destination_first`: a nil pointer, on
an instance that has not loaded its document yet. -/
theorem Config_rejects_invalid_destination_first_witness :
    (∃ e, (Config truncConv (worldOf (.str "doc")) (NewNoNoConfig ["config.yaml"]) .nilPtr
        [.str "a"]).result = .reject e) ∧
      (Config truncConv (worldOf (.str "doc")) (NewNoNoConfig ["config.yaml"]) .nilPtr
        [.str "a"]).trace = [] ∧
      (Config truncConv (worldOf (.str "doc")) (NewNoNoConfig ["config.yaml"]) .nilPtr
        [.str "a"]).nnc = NewNoNoConfig ["config.yaml"] :=
  Config_rejects_invalid_destination_first truncConv (worldOf (.str "doc"))
    (NewNoNoConfig ["config.yaml"]) .nilPtr [.str "a"] (Or.inr rfl)

/-! ## Any destinations (C11) -/

/-- C11 (code defect): an `any` destination and a scalar equal to its kind's
zero value. As a mapping value (`z: 0`, `Config(&x, "z")`) the integer `0`
is stored as it is; as the document root (`Config(&x)` on the document `0`,
`""` or `false`) `in.IsZero()` holds for the concrete value and the
destination is set to nil instead of the source. The same happens to the key
`""` of a string-keyed mapping decoded into a `map[interface{}]interface{}`:
the entry is stored under the nil key. -/
theorem any_destination_zero_scalar :
    (Config truncConv (worldOf (.map true [(.str "z", .int 0)]))
        (NewNoNoConfig ["config.yaml"]) (.ptr .iface (.iface (.str "old")))
        [.str "z"]).result = .ok (.iface (.int 0)) ∧
      (Config truncConv (worldOf (.int 0)) (NewNoNoConfig ["config.yaml"])
        (.ptr .iface (.iface (.str "old"))) []).result = .ok (.iface .null) ∧
      (Config truncConv (worldOf (.str "")) (NewNoNoConfig ["config.yaml"])
        (.ptr .iface (.iface (.str "old"))) []).result = .ok (.iface .null) ∧
      (Config truncConv (worldOf (.bool false)) (NewNoNoConfig ["config.yaml"])
        (.ptr .iface (.iface (.str "old"))) []).result = .ok (.iface .null) ∧
      (Config truncConv (worldOf (.map true [(.str "", .int 1)]))
        (NewNoNoConfig ["config.yaml"]) (.ptr (.map .iface .iface) .nilMap)
        []).result = .ok (.map [(.iface .null, .iface (.int 1))]) ∧
      DVal.iface .null ≠ DVal.iface (.int 0) := by
  decide

/-! ## Sequence destinations with prior content (C12) -/

/-- Decoding a source sequence into a slice runs the slice loop. -/
theorem recursiveReflection_slice (cv : Float32Conv) (h : Handle) (e : Ty) (xs : List Src)
    (cur : DVal) :
    recursiveReflection cv h (.seq xs) (.ptr false (.slice e) cur) =
      seqLoop cv false e xs cur := by
  rw [recursiveReflection_ptr]
  cases h <;> simp [isValid, isZero]

/-- C12 (amended): the slice destination is appended to. When every element of
the source sequence decodes, decoding succeeds and the destination holds what
it held before followed by the decoded elements in source order, so a
destination that was empty holds exactly the decoded elements. Decoding an
empty source sequence leaves the destination as it was, and decoding a null
leaves it the nil slice, which has no elements. -/
theorem sequence_destination_appended (cv : Float32Conv) (h : Handle) (e : Ty)
    (xs : List Src) (cur : DVal)
    (hdec : ∀ x ∈ xs, ∃ d, recursiveReflection cv .elem x (OutRef.new e) = .ok d) :
    (∃ out ds, recursiveReflection cv h (.seq xs) (.ptr false (.slice e) cur) = .ok out ∧
      out.elems = cur.elems ++ ds ∧
      List.Forall₂ (fun x d => recursiveReflection cv .elem x (OutRef.new e) = .ok d) xs ds) ∧
    recursiveReflection cv h (.seq []) (.ptr false (.slice e) cur) = .ok cur ∧
    recursiveReflection cv .elem .null (.ptr false (.slice e) cur) = .ok .nilSlice ∧
    DVal.nilSlice.elems = [] := by
  obtain ⟨ds, hds⟩ := exists_forall₂_of_forall_exists _ xs hdec
  refine ⟨⟨_, ds, by rw [recursiveReflection_slice, seqLoop_ok cv e xs ds hds], ?_, hds⟩,
    ?_, ?_, rfl⟩
  · by_cases hd : ds = []
    · simp [hd]
    · simp [hd, DVal.elems]
  · rw [recursiveReflection_slice, seqLoop_nil]
  · rw [null_element_decoding]
    rfl

/-- Witness for `sequence_destination_appended`: `[p, q]` into a slice of
strings holding `old`. -/
theorem sequence_destination_appended_witness :
    (∃ out ds, recursiveReflection truncConv .elem (.seq [.str "p", .str "q"])
        (.ptr false (.slice .str) (.slice [.str "old"])) = .ok out ∧
      out.elems = (DVal.slice [.str "old"]).elems ++ ds ∧
      List.Forall₂ (fun x d => recursiveReflection truncConv .elem x (OutRef.new .str) = .ok d)
        [.str "p", .str "q"] ds) ∧
    recursiveReflection truncConv .elem (.seq []) (.ptr false (.slice .str)
      (.slice [.str "old"])) = .ok (.slice [.str "old"]) ∧
    recursiveReflection truncConv .elem .null (.ptr false (.slice .str)
      (.slice [.str "old"])) = .ok .nilSlice ∧
    DVal.nilSlice.elems = [] :=
  sequence_destination_appended truncConv .elem .str [.str "p", .str "q"]
    (.slice [.str "old"]) (by
      intro x hx
      simp only [List.mem_cons, List.mem_singleton, List.not_mem_nil, or_false] at hx
      rcases hx with rfl | rfl <;> exact ⟨_, rfl⟩)

/-- C12 (counterexample): a slice of strings holding `old`. Decoding the
sequence `[p, q]` succeeds and leaves `[old, p, q]`, three elements and not
the two decoded ones; decoding the empty sequence leaves `[old]`, not an empty
slice. -/
theorem sequence_destination_keeps_prior_elements :
    recursiveReflection truncConv .elem (.seq [.str "p", .str "q"])
        (.ptr false (.slice .str) (.slice [.str "old"]))
        = .ok (.slice [.str "old", .str "p", .str "q"]) ∧
      (DVal.slice [.str "old", .str "p", .str "q"]).elems ≠ [.str "p", .str "q"] ∧
      recursiveReflection truncConv .elem (.seq [])
        (.ptr false (.slice .str) (.slice [.str "old"])) = .ok (.slice [.str "old"]) ∧
      (DVal.slice [.str "old"]).elems ≠ [] := by
  decide

/-! ## Empty and null mappings (C13) -/

/-- Decoding a source mapping into a map runs the map loop on the
destination, made non-nil first. -/
theorem recursiveReflection_map (cv : Float32Conv) (h : Handle) (sk : Bool) (kt vt : Ty)
    (es : List (Src × Src)) (cur : DVal) :
    recursiveReflection cv h (.map sk es) (.ptr false (.map kt vt) cur) =
      mapLoop cv sk kt vt es cur.makeMapIfNil := by
  rw [recursiveReflection_ptr]
  cases h <;> simp [isValid, isZero]

/-- C13 (amended): decoding a source mapping with zero entries succeeds; a nil
destination becomes the empty non-nil map and a non-nil destination is left
as it was, so an empty one stays empty and non-nil. Decoding a null succeeds
for every map destination and leaves it the nil map, which has no entries. -/
theorem empty_or_null_mapping (cv : Float32Conv) (h : Handle) (sk : Bool) (kt vt : Ty) :
    recursiveReflection cv h (.map sk []) (.ptr false (.map kt vt) .nilMap) = .ok (.map []) ∧
    (∀ es0, recursiveReflection cv h (.map sk []) (.ptr false (.map kt vt) (.map es0))
      = .ok (.map es0)) ∧
    (∀ cur, recursiveReflection cv .elem .null (.ptr false (.map kt vt) cur) = .ok .nilMap) ∧
    DVal.nilMap.entries = [] := by
  refine ⟨?_, ?_, ?_, rfl⟩
  · rw [recursiveReflection_map, mapLoop_nil]
    rfl
  · intro es0
    rw [recursiveReflection_map, mapLoop_nil]
    rfl
  · intro cur
    rw [null_element_decoding]
    rfl

/-- C13 (counterexample): a `map[string]int`. Decoding a null into an empty
non-nil map leaves the nil map, not an initialised one; decoding the empty
mapping into a map holding `old -> 7` leaves that entry in place. -/
theorem empty_or_null_mapping_not_initialised_empty :
    recursiveReflection truncConv .elem .null
        (.ptr false (.map .str (.int .int)) (.map [])) = .ok .nilMap ∧
      DVal.nilMap ≠ DVal.map [] ∧
      recursiveReflection truncConv .elem (.map true [])
        (.ptr false (.map .str (.int .int)) (.map [(.str "old", .int 7)]))
        = .ok (.map [(.str "old", .int 7)]) ∧
      (DVal.map [(.str "old", .int 7)]).entries ≠ [] := by
  decide

/-! ## Empty key list (C14) -/

theorem recursiveReflection_str (cv : Float32Conv) (h : Handle) (s : String) (cur : DVal) :
    recursiveReflection cv h (.str s) (.ptr false .str cur) = .ok (.str s) := by
  rw [recursiveReflection_ptr]
  cases h
  · by_cases hz : (s.length == 0) = true
    · simp [isValid, isZero, hz, zero, str_of_length_zero s hz]
    · simp [isValid, isZero, hz, stringOf]
  · simp [isValid, isZero, stringOf]

/-- An element of a container decoded into an `interface{}` variable is stored
as it is (a nil element as the nil interface). -/
theorem recursiveReflection_elem_iface (cv : Float32Conv) (x : Src) (cur : DVal) :
    recursiveReflection cv .elem x (.ptr false .iface cur) = .ok (.iface x) := by
  rw [recursiveReflection_ptr]
  cases x <;> simp [isValid, isZero, zero]

/-- The entries a map holds after the assignments `m[k] = v` for the pairs of
`qs`, in order. -/
theorem mapLoop_ok_fold (cv : Float32Conv) (sk : Bool) (kt vt : Ty) (es : List (Src × Src))
    (qs : List (DVal × DVal))
    (hqs : List.Forall₂ (fun p q =>
      recursiveReflection cv (keyHandle sk) p.1 (OutRef.new kt) = .ok q.1 ∧
      recursiveReflection cv .elem p.2 (OutRef.new vt) = .ok q.2) es qs)
    (acc : List (DVal × DVal)) :
    mapLoop cv sk kt vt es (.map acc) =
      .ok (.map (qs.foldl (fun a q => setEntry q.1 q.2 a) acc)) := by
  induction hqs generalizing acc with
  | nil => simp [mapLoop_nil]
  | @cons p q es qs hpq _ ih =>
    obtain ⟨k, x⟩ := p
    obtain ⟨kd, vd⟩ := q
    rw [mapLoop_cons, hpq.1, hpq.2]
    simp only [DVal.setMapIndex, DVal.entries, List.foldl_cons]
    exact ih _

theorem DVal.makeMapIfNil_eq (cur : DVal) : cur.makeMapIfNil = .map cur.entries := by
  cases cur <;> rfl

theorem mem_keys_setEntry_self (k v : DVal) (es : List (DVal × DVal)) :
    k ∈ (setEntry k v es).map Prod.fst := by
  induction es with
  | nil => simp [setEntry]
  | cons p rest ih =>
    obtain ⟨k0, v0⟩ := p
    by_cases hb : DVal.beq k0 k = true
    · simp [setEntry, hb]
    · simp [setEntry, hb, ih]

theorem mem_keys_setEntry_of_mem (k v k' : DVal) (es : List (DVal × DVal))
    (hk : k' ∈ es.map Prod.fst) : k' ∈ (setEntry k v es).map Prod.fst := by
  induction es with
  | nil => simp at hk
  | cons p rest ih =>
    obtain ⟨k0, v0⟩ := p
    by_cases hb : DVal.beq k0 k = true
    · have hk0 : k0 = k := (DVal.dval_beq_iff k0 k).mp hb
      subst hk0
      simpa [setEntry, hb] using hk
    · simp only [List.map_cons, List.mem_cons] at hk
      rcases hk with rfl | hk
      · simp [setEntry, hb]
      · simp [setEntry, hb, ih hk]

theorem mem_keys_foldl_setEntry (qs : List (DVal × DVal)) (acc : List (DVal × DVal))
    (k : DVal) (hk : k ∈ acc.map Prod.fst ∨ k ∈ qs.map Prod.fst) :
    k ∈ (qs.foldl (fun a q => setEntry q.1 q.2 a) acc).map Prod.fst := by
  induction qs generalizing acc with
  | nil => simpa using hk
  | cons q qs ih =>
    simp only [List.foldl_cons]
    apply ih
    rcases hk with hk | hk
    · exact Or.inl (mem_keys_setEntry_of_mem _ _ _ _ hk)
    · simp only [List.map_cons, List.mem_cons] at hk
      rcases hk with rfl | hk
      · exact Or.inl (mem_keys_setEntry_self _ _ _)
      · exact Or.inr hk

/-- C14: once the document is loaded (from the cache or by a successful load)
as the tree `t`, `Config(d)` with no keys returns exactly what decoding `t`
itself, as the value `reflect.ValueOf(t)`, into `d` returns, with the same
effect on `d`. When `t` is a mapping with string keys and `d` a
map-of-string-to-any, whatever it held, the call succeeds and the destination
then has an entry for every top-level key of the document. -/
theorem Config_empty_key_list (cv : Float32Conv) (w : World) (nnc : NoNoConfig) (t : Src)
    (hload : (ensureLoaded w nnc).err = none) (ht : (ensureLoaded w nnc).nnc.c = t) :
    (∀ ty cur, (Config cv w nnc (.ptr ty cur) []).result =
      recursiveReflection cv .direct t (.ptr false ty cur)) ∧
    (∀ es cur, t = .map true es → (∀ p ∈ es, ∃ s, p.1 = Src.str s) →
      ∃ out, (Config cv w nnc (.ptr (.map .str .iface) cur) []).result = .ok (.map out) ∧
        ∀ s x, (Src.str s, x) ∈ es → DVal.str s ∈ out.map Prod.fst) := by
  have hres : ∀ ty cur, (Config cv w nnc (.ptr ty cur) []).result =
      recursiveReflection cv .direct t (.ptr false ty cur) := by
    intro ty cur
    simp only [Config, hload, findEntry, ht]
  refine ⟨hres, ?_⟩
  intro es cur hes hkeys
  have hdec : ∀ p ∈ es, ∃ q : DVal × DVal,
      (recursiveReflection cv (keyHandle true) p.1 (OutRef.new .str) = .ok q.1 ∧
        recursiveReflection cv .elem p.2 (OutRef.new .iface) = .ok q.2) ∧
      ∀ s, p.1 = Src.str s → q.1 = DVal.str s := by
    intro p hp
    obtain ⟨s, hs⟩ := hkeys p hp
    refine ⟨(.str s, .iface p.2), ⟨?_, ?_⟩, ?_⟩
    · rw [hs]
      exact recursiveReflection_str cv _ s _
    · exact recursiveReflection_elem_iface cv p.2 _
    · intro s' hs'
      rw [hs] at hs'
      cases hs'
      rfl
  obtain ⟨qs, hqs⟩ := exists_forall₂_of_forall_exists _ es hdec
  have hqs1 := hqs.imp (fun _ _ h => h.1)
  refine ⟨qs.foldl (fun a q => setEntry q.1 q.2 a) cur.entries, ?_, ?_⟩
  · rw [hres, hes, recursiveReflection_map, DVal.makeMapIfNil_eq,
      mapLoop_ok_fold cv true .str .iface es qs hqs1]
  · intro s x hmem
    apply mem_keys_foldl_setEntry
    right
    clear hqs1 hdec hkeys hes
    induction hqs with
    | nil => simp at hmem
    | @cons p q es qs hpq _ ih =>
      rcases List.mem_cons.mp hmem with hp | hmem'
      · subst hp
        simp [hpq.2 s rfl]
      · simp only [List.map_cons, List.mem_cons]
        exact Or.inr (ih hmem')

/-- Witness for `Config_empty_key_list`: a fresh instance whose file parses to
`{single_int: 42, single_string: SingleString}`. -/
theorem Config_empty_key_list_witness :
    (ensureLoaded (worldOf (.map true [(.str "single_int", .int 42),
        (.str "single_string", .str "SingleString")])) (NewNoNoConfig ["config.yaml"])).err
        = none ∧
    (∀ ty cur, (Config truncConv (worldOf (.map true [(.str "single_int", .int 42),
        (.str "single_string", .str "SingleString")])) (NewNoNoConfig ["config.yaml"])
        (.ptr ty cur) []).result =
      recursiveReflection truncConv .direct (.map true [(.str "single_int", .int 42),
        (.str "single_string", .str "SingleString")]) (.ptr false ty cur)) ∧
    (∀ es cur, Src.map true [(.str "single_int", .int 42),
        (.str "single_string", .str "SingleString")] = .map true es →
      (∀ p ∈ es, ∃ s, p.1 = Src.str s) →
      ∃ out, (Config truncConv (worldOf (.map true [(.str "single_int", .int 42),
          (.str "single_string", .str "SingleString")])) (NewNoNoConfig ["config.yaml"])
          (.ptr (.map .str .iface) cur) []).result = .ok (.map out) ∧
        ∀ s x, (Src.str s, x) ∈ es → DVal.str s ∈ out.map Prod.fst) :=
  ⟨rfl, Config_empty_key_list truncConv
    (worldOf (.map true [(.str "single_int", .int 42),
      (.str "single_string", .str "SingleString")]))
    (NewNoNoConfig ["config.yaml"])
    (.map true [(.str "single_int", .int 42), (.str "single_string", .str "SingleString")])
    rfl rfl⟩

/-! ## Panics and early failures (C15, C16) -/

/-- C15 (code defect): inputs on which the program aborts instead of returning
an error. A string source with an integer destination panics in `in.Int()`; a
non-empty sequence with a fixed-size array destination panics in
`reflect.Append`; on the document `a: 1` the call `Config(&x, 5)` panics in
`MapIndex`, the integer key not being assignable to the string key type, and
so does `Config(&x, nil)`. -/
theorem panics_instead_of_errors :
    recursiveReflection truncConv .elem (.str "x") (.ptr false (.int .int) (.int 0))
        = .panic ∧
      recursiveReflection truncConv .elem (.seq [.str "a", .str "b"])
        (.ptr false (.array 2 .str) (.array [.str "", .str ""])) = .panic ∧
      (Config truncConv (worldOf (.map true [(.str "a", .int 1)]))
        (NewNoNoConfig ["config.yaml"]) (.ptr .iface (.iface .null)) [.int 5]).result
        = .panic ∧
      (Config truncConv (worldOf (.map true [(.str "a", .int 1)]))
        (NewNoNoConfig ["config.yaml"]) (.ptr .iface (.iface .null)) [.null]).result
        = .panic ∧
      (Config truncConv (worldOf (.map true [(.str "a", .str "x")]))
        (NewNoNoConfig ["config.yaml"]) (.ptr (.int .int) (.int 0)) [.str "a"]).result
        = .panic := by
  decide

/-- C16: a call of `Config` that fails in the validation of the destination
argument, in loading the document or in the key loop returns an error without
reaching the decoder: the variable the destination points to, if there is
one, holds after the call what it held before. -/
theorem Config_early_failure_leaves_destination (cv : Float32Conv) (w : World)
    (nnc : NoNoConfig) (value : Arg) (keys : List Src)
    (hearly : value = .nonPtr ∨ value = .nilPtr ∨
      (ensureLoaded w nnc).err ≠ none ∨
      ∃ e, findEntry .direct (ensureLoaded w nnc).nnc.c keys = .error e) :
    (∃ e, (Config cv w nnc value keys).result = .reject e) ∧
      destAfter value (Config cv w nnc value keys).result = value.pointee := by
  have hrej : ∃ e, (Config cv w nnc value keys).result = .reject e := by
    cases value with
    | nonPtr => exact ⟨_, rfl⟩
    | nilPtr => exact ⟨_, rfl⟩
    | ptr t cur =>
      rcases hearly with h | h | h | ⟨e, h⟩
      · cases h
      · cases h
      · cases herr : (ensureLoaded w nnc).err with
        | none => exact absurd herr h
        | some e => exact ⟨e, by simp only [Config, herr]⟩
      · cases herr : (ensureLoaded w nnc).err with
        | none => exact ⟨e, by simp only [Config, herr, h]⟩
        | some e' => exact ⟨e', by simp only [Config, herr]⟩
  obtain ⟨e, he⟩ := hrej
  exact ⟨⟨e, he⟩, by rw [he]; rfl⟩

/-- Witness for `Config_early_failure_leaves_destination`: the key `invalid`
is absent from the document `a: 1`. -/
theorem Config_early_failure_leaves_destination_witness :
    (∃ e, (Config truncConv (worldOf (.map true [(.str "a", .int 1)]))
        (NewNoNoConfig ["config.yaml"]) (.ptr .str (.str "old")) [.str "invalid"]).result
        = .reject e) ∧
      destAfter (.ptr .str (.str "old"))
        (Config truncConv (worldOf (.map true [(.str "a", .int 1)]))
          (NewNoNoConfig ["config.yaml"]) (.ptr .str (.str "old")) [.str "invalid"]).result
        = (Arg.ptr .str (.str "old")).pointee :=
  Config_early_failure_leaves_destination truncConv (worldOf (.map true [(.str "a", .int 1)]))
    (NewNoNoConfig ["config.yaml"]) (.ptr .str (.str "old")) [.str "invalid"]
    (Or.inr (Or.inr (Or.inr ⟨.keyNotFound (.str "invalid"), rfl⟩)))

/-! ## Candidate files (C17) -/

/-- The candidates `configurationFile` skips do not change its result. -/
theorem configurationFile_skip (w : World) (pre rest : List String)
    (hskip : ∀ g ∈ pre, w.stat g = .notExist ∨ w.stat g = .dir) :
    configurationFile w (pre ++ rest) =
      ((configurationFile w rest).1, pre.map FsOp.stat ++ (configurationFile w rest).2) := by
  induction pre with
  | nil => simp
  | cons g pre ih =>
    have hg := hskip g (List.mem_cons_self _ _)
    have ih' := ih (fun g' hg' => hskip g' (List.mem_cons_of_mem _ hg'))
    have hstep : configurationFile w (g :: (pre ++ rest)) =
        ((configurationFile w (pre ++ rest)).1,
          FsOp.stat g :: (configurationFile w (pre ++ rest)).2) := by
      rcases hg with hg | hg <;> simp only [configurationFile, hg]
    rw [List.cons_append, hstep, ih']
    rfl

/-- C17: over a candidate list `pre ++ f :: post` in which every candidate of
`pre` does not exist or is a directory, `configurationFile` returns `f` when
`f` is an existing non-directory and fails with "unable to stat" when the
stat of `f` fails for another reason than non-existence; in both cases it has
looked at the candidates of `pre` and at `f`, in order, and at none of `post`.
When every candidate is skipped, the empty list included, it fails with "no
configuration file found". Every candidate list falls under one of these
cases. -/
theorem configurationFile_first_regular_file (w : World) (pre : List String)
    (hskip : ∀ g ∈ pre, w.stat g = .notExist ∨ w.stat g = .dir) :
    (∀ f post, w.stat f = .file →
      configurationFile w (pre ++ f :: post) = (.ok f, (pre ++ [f]).map FsOp.stat)) ∧
    (∀ f post, w.stat f = .failed →
      configurationFile w (pre ++ f :: post)
        = (.error (.statFailed f), (pre ++ [f]).map FsOp.stat)) ∧
    configurationFile w pre = (.error .noConfigFile, pre.map FsOp.stat) ∧
    configurationFile w [] = (.error .noConfigFile, []) ∧
    (∀ fs : List String, (∀ g ∈ fs, w.stat g = .notExist ∨ w.stat g = .dir) ∨
      ∃ pre' f post, fs = pre' ++ f :: post ∧
        (∀ g ∈ pre', w.stat g = .notExist ∨ w.stat g = .dir) ∧
        (w.stat f = .file ∨ w.stat f = .failed)) := by
  refine ⟨?_, ?_, ?_, rfl, ?_⟩
  · intro f post hf
    rw [configurationFile_skip w pre _ hskip]
    simp [configurationFile, hf]
  · intro f post hf
    rw [configurationFile_skip w pre _ hskip]
    simp [configurationFile, hf]
  · have := configurationFile_skip w pre [] hskip
    simpa [configurationFile] using this
  · intro fs
    induction fs with
    | nil => exact Or.inl (by simp)
    | cons g fs ih =>
      cases hg : w.stat g with
      | file => exact Or.inr ⟨[], g, fs, rfl, by simp, Or.inl hg⟩
      | failed => exact Or.inr ⟨[], g, fs, rfl, by simp, Or.inr hg⟩
      | notExist =>
        rcases ih with hall | ⟨pre', f, post, hfs, hpre, hf⟩
        · left
          intro g' hg'
          rcases List.mem_cons.mp hg' with rfl | hg'
          · exact Or.inl hg
          · exact hall g' hg'
        · right
          refine ⟨g :: pre', f, post, by rw [hfs]; rfl, ?_, hf⟩
          intro g' hg'
          rcases List.mem_cons.mp hg' with rfl | hg'
          · exact Or.inl hg
          · exact hpre g' hg'
      | dir =>
        rcases ih with hall | ⟨pre', f, post, hfs, hpre, hf⟩
        · left
          intro g' hg'
          rcases List.mem_cons.mp hg' with rfl | hg'
          · exact Or.inr hg
          · exact hall g' hg'
        · right
          refine ⟨g :: pre', f, post, by rw [hfs]; rfl, ?_, hf⟩
          intro g' hg'
          rcases List.mem_cons.mp hg' with rfl | hg'
          · exact Or.inr hg
          · exact hpre g' hg'

/-- Witness for `configurationFile_first_regular_file`: the directory
`conf.d` and the missing `a.yaml` before `config.yaml`. -/
theorem configurationFile_first_regular_file_witness :
    configurationFile (worldOf .null) (["conf.d", "a.yaml"] ++ "config.yaml" :: ["b.yaml"])
      = (.ok "config.yaml", (["conf.d", "a.yaml"] ++ ["config.yaml"]).map FsOp.stat) :=
  (configurationFile_first_regular_file (worldOf .null) ["conf.d", "a.yaml"] (by
      intro g hg
      simp only [List.mem_cons, List.mem_singleton, List.not_mem_nil, or_false] at hg
      rcases hg with rfl | rfl
      · exact Or.inr rfl
      · exact Or.inl rfl)).1 "config.yaml" ["b.yaml"] rfl

/-! ## Load-once caching (C18) -/

/-- Every call of `Config` returns the instance and the accesses of its
loading step, or the untouched instance and no access when the destination
argument is rejected. -/
theorem Config_nnc_trace (cv : Float32Conv) (w : World) (nnc : NoNoConfig) (t : Ty)
    (cur : DVal) (keys : List Src) :
    (Config cv w nnc (.ptr t cur) keys).nnc = (ensureLoaded w nnc).nnc ∧
      (Config cv w nnc (.ptr t cur) keys).trace = (ensureLoaded w nnc).trace := by
  simp only [Config]
  cases (ensureLoaded w nnc).err with
  | some e => exact ⟨rfl, rfl⟩
  | none =>
    cases findEntry .direct (ensureLoaded w nnc).nnc.c keys <;> exact ⟨rfl, rfl⟩

theorem ensureLoaded_cached (w : World) (nnc : NoNoConfig) (hc : nnc.c ≠ .null) :
    ensureLoaded w nnc = { err := none, nnc := nnc, trace := [] } := by
  unfold ensureLoaded
  cases hcc : nnc.c <;> first | rfl | exact absurd hcc hc

theorem Config_cached (cv : Float32Conv) (w : World) (nnc : NoNoConfig) (hc : nnc.c ≠ .null)
    (value : Arg) (keys : List Src) :
    (Config cv w nnc value keys).nnc = nnc ∧ (Config cv w nnc value keys).trace = [] := by
  cases value with
  | nonPtr => exact ⟨rfl, rfl⟩
  | nilPtr => exact ⟨rfl, rfl⟩
  | ptr t cur =>
    have h := Config_nnc_trace cv w nnc t cur keys
    rw [ensureLoaded_cached w nnc hc] at h
    exact h

theorem configCalls_cached (cv : Float32Conv) (w : World) (nnc : NoNoConfig)
    (hc : nnc.c ≠ .null) (calls : List (Arg × List Src)) :
    ∀ r ∈ configCalls cv w nnc calls, r.trace = [] ∧ r.nnc = nnc := by
  induction calls with
  | nil => simp [configCalls]
  | cons call rest ih =>
    obtain ⟨value, keys⟩ := call
    have h := Config_cached cv w nnc hc value keys
    intro r hr
    simp only [configCalls, List.mem_cons] at hr
    rcases hr with rfl | hr
    · exact ⟨h.2, h.1⟩
    · rw [h.1] at hr
      exact ih r hr

/-- C18 (amended): loading is lazy and a non-nil tree is cached. On an instance
whose tree is nil a call with a valid destination runs `updateConfig`; on an
instance whose tree is not nil every call of every later sequence of calls makes
no file-system access and leaves the instance as it is. A load that finds no
file, cannot stat a candidate or cannot read the file leaves the instance as
it was, so the next call loads again; a load that reads the file stores what
the parser left in `c`. -/
theorem Config_load_once (cv : Float32Conv) (w : World) (nnc : NoNoConfig) :
    (nnc.c = .null → ∀ t cur keys,
      (Config cv w nnc (.ptr t cur) keys).trace = (updateConfig w nnc).trace ∧
      (Config cv w nnc (.ptr t cur) keys).nnc = (updateConfig w nnc).nnc) ∧
    (nnc.c ≠ .null → ∀ calls, ∀ r ∈ configCalls cv w nnc calls,
      r.trace = [] ∧ r.nnc = nnc) ∧
    (∀ e, (configurationFile w nnc.fs).1 = .error e →
      (updateConfig w nnc).err = some e ∧ (updateConfig w nnc).nnc = nnc) ∧
    (∀ f, (configurationFile w nnc.fs).1 = .ok f → w.readFile f = none →
      (updateConfig w nnc).err = some (.readFailed f) ∧ (updateConfig w nnc).nnc = nnc) ∧
    (∀ f b, (configurationFile w nnc.fs).1 = .ok f → w.readFile f = some b →
      (updateConfig w nnc).nnc = { nnc with c := (w.unmarshal b).tree } ∧
      ((updateConfig w nnc).err = none ↔ (w.unmarshal b).err = false)) := by
  refine ⟨?_, configCalls_cached cv w nnc, ?_, ?_, ?_⟩
  · intro hc t cur keys
    have h := Config_nnc_trace cv w nnc t cur keys
    have hl : ensureLoaded w nnc = updateConfig w nnc := by
      unfold ensureLoaded
      rw [hc]
    rw [hl] at h
    exact ⟨h.2, h.1⟩
  · intro e he
    unfold updateConfig
    cases hcf : configurationFile w nnc.fs with
    | mk r tr =>
      rw [hcf] at he
      simp only at he
      subst he
      exact ⟨rfl, rfl⟩
  · intro f hf hread
    unfold updateConfig
    cases hcf : configurationFile w nnc.fs with
    | mk r tr =>
      rw [hcf] at hf
      simp only at hf
      subst hf
      simp [hread]
  · intro f b hf hread
    unfold updateConfig
    cases hcf : configurationFile w nnc.fs with
    | mk r tr =>
      rw [hcf] at hf
      simp only at hf
      subst hf
      cases herr : (w.unmarshal b).err <;> simp [hread, herr]

/-- Witness for `Config_load_once`: after a first call has loaded the document
`42`, two further calls make no file-system access. -/
theorem Config_load_once_witness :
    (Config truncConv (worldOf (.int 42)) (NewNoNoConfig ["config.yaml"])
        (.ptr (.int .int) (.int 0)) []).nnc.c ≠ .null ∧
      ∀ r ∈ configCalls truncConv (worldOf (.int 42))
          (Config truncConv (worldOf (.int 42)) (NewNoNoConfig ["config.yaml"])
            (.ptr (.int .int) (.int 0)) []).nnc
          [(.ptr (.int .int) (.int 0), []), (.ptr .iface (.iface .null), [.str "a"])],
        r.trace = [] ∧
          r.nnc = (Config truncConv (worldOf (.int 42)) (NewNoNoConfig ["config.yaml"])
            (.ptr (.int .int) (.int 0)) []).nnc :=
  ⟨by decide,
    (Config_load_once truncConv (worldOf (.int 42))
      (Config truncConv (worldOf (.int 42)) (NewNoNoConfig ["config.yaml"])
        (.ptr (.int .int) (.int 0)) []).nnc).2.1 (by decide) _⟩

/-- C18 (counterexample): a file that is read and parsed without error into
the null document. The tree stays nil, so the second of two calls with a
valid destination stats and reads the file again. -/
theorem null_document_is_loaded_again :
    (updateConfig (worldOf .null) (NewNoNoConfig ["config.yaml"])).err = none ∧
      (configCalls truncConv (worldOf .null) (NewNoNoConfig ["config.yaml"])
          [(.ptr .iface (.iface .null), []), (.ptr .iface (.iface .null), [])]).map
          (fun r => r.trace)
        = [[.stat "config.yaml", .read "config.yaml"],
            [.stat "config.yaml", .read "config.yaml"]] := by
  decide

/-! ## Termination (C19) -/

theorem Src.size_le_sizeList (xs : List Src) (x : Src) (hx : x ∈ xs) :
    x.size ≤ Src.sizeList xs := by
  induction xs with
  | nil => simp at hx
  | cons y ys ih =>
    rcases List.mem_cons.mp hx with rfl | hx'
    · simp only [Src.sizeList]; omega
    · have := ih hx'
      simp only [Src.sizeList]; omega

theorem Src.size_le_sizeEntries (es : List (Src × Src)) (p : Src × Src) (hp : p ∈ es) :
    p.1.size + p.2.size ≤ Src.sizeEntries es := by
  induction es with
  | nil => simp at hp
  | cons q qs ih =>
    obtain ⟨k, x⟩ := q
    rcases List.mem_cons.mp hp with rfl | hp'
    · simp only [Src.sizeEntries]; omega
    · have := ih hp'
      simp only [Src.sizeEntries]; omega

theorem Src.size_lt_of_mem_children (v c : Src) (hc : c ∈ v.children) : c.size < v.size := by
  cases v with
  | seq xs =>
    have := Src.size_le_sizeList xs c hc
    simp only [Src.size]; omega
  | map sk es =>
    simp only [Src.children, List.mem_append, List.mem_map] at hc
    rcases hc with ⟨p, hp, rfl⟩ | ⟨p, hp, rfl⟩
    · have := Src.size_le_sizeEntries es p hp
      simp only [Src.size]; omega
    · have := Src.size_le_sizeEntries es p hp
      simp only [Src.size]; omega
  | null => simp [Src.children] at hc
  | bool b => simp [Src.children] at hc
  | int n => simp [Src.children] at hc
  | float b => simp [Src.children] at hc
  | str s => simp [Src.children] at hc

theorem lookup_mem (es : List (Src × Src)) (key r : Src) (h : lookup es key = some r) :
    ∃ k, (k, r) ∈ es := by
  induction es with
  | nil => simp [lookup] at h
  | cons p rest ih =>
    obtain ⟨k, x⟩ := p
    by_cases hk : keyEq k key = true
    · simp only [lookup, hk, if_true, Option.some.injEq] at h
      subst h
      exact ⟨k, List.mem_cons_self _ _⟩
    · simp only [lookup, hk] at h
      obtain ⟨k', hk'⟩ := ih h
      exact ⟨k', List.mem_cons_of_mem _ hk'⟩

/-- C19: the decoder recurses on strict sub-values of the source. Its loops
satisfy the recursion equations below, in which `recursiveReflection` is
called on an element of the source sequence, on a key or a value of the source
mapping, or on the value `MapIndex` finds under a field's lookup key; each of
these is an immediate sub-value of the current source, an immediate sub-value
has fewer nodes than the value it is part of, and the sub-value relation is
well-founded. So the recursion (a structural recursion on the source tree)
ends on every source tree, for every destination type. -/
theorem recursiveReflection_descends (cv : Float32Conv) :
    (∀ v c : Src, c ∈ v.children → c.size < v.size) ∧
    WellFounded (fun c v : Src => c ∈ v.children) ∧
    (∀ h e xs cur, recursiveReflection cv h (.seq xs) (.ptr false (.slice e) cur)
      = seqLoop cv false e xs cur) ∧
    (∀ arr e x rest cur, x ∈ (Src.seq (x :: rest)).children ∧
      seqLoop cv arr e (x :: rest) cur =
        match recursiveReflection cv .elem x (OutRef.new e) with
        | .ok d => if arr then .panic else seqLoop cv arr e rest (cur.append d)
        | .fail err _ => .fail err cur
        | .reject err => .fail err cur
        | .panic => .panic) ∧
    (∀ h sk kt vt es cur, recursiveReflection cv h (.map sk es) (.ptr false (.map kt vt) cur)
      = mapLoop cv sk kt vt es cur.makeMapIfNil) ∧
    (∀ sk kt vt k x rest cur,
      k ∈ (Src.map sk ((k, x) :: rest)).children ∧
      x ∈ (Src.map sk ((k, x) :: rest)).children ∧
      mapLoop cv sk kt vt ((k, x) :: rest) cur =
        match recursiveReflection cv (keyHandle sk) k (OutRef.new kt) with
        | .ok kd =>
          match recursiveReflection cv .elem x (OutRef.new vt) with
          | .ok vd => mapLoop cv sk kt vt rest (cur.setMapIndex kd vd)
          | .fail e _ => .fail e cur
          | .reject e => .fail e cur
          | .panic => .panic
        | .fail e _ => .fail e cur
        | .reject e => .fail e cur
        | .panic => .panic) ∧
    (∀ h sk es fs cs,
      recursiveReflection cv h (.map sk es) (.ptr false (.struct fs) (.struct cs)) =
        match fieldLoop (fun key o =>
            (lookup es key).map (fun r => recursiveReflection cv .elem r o)) fs cs with
        | .ok ds => .ok (.struct ds)
        | .fail e ds => .fail e (.struct ds)
        | .reject e => .reject e
        | .panic => .panic) ∧
    (∀ sk es key r, lookup es key = some r → r ∈ (Src.map sk es).children) := by
  refine ⟨Src.size_lt_of_mem_children, ?_, recursiveReflection_slice cv, ?_,
    recursiveReflection_map cv, ?_, ?_, ?_⟩
  · exact Subrelation.wf (fun {c v} h => Src.size_lt_of_mem_children v c h)
      (InvImage.wf Src.size Nat.lt_wfRel.wf)
  · intro arr e x rest cur
    exact ⟨List.mem_cons_self _ _, seqLoop_cons cv arr e x rest cur⟩
  · intro sk kt vt k x rest cur
    exact ⟨by simp [Src.children], by simp [Src.children],
      mapLoop_cons cv sk kt vt k x rest cur⟩
  · intro h sk es fs cs
    rw [recursiveReflection_struct]
    have : (fun key o => lookupDecode cv es key o) =
        (fun key o => (lookup es key).map (fun r => recursiveReflection cv .elem r o)) := by
      funext key o
      exact lookupDecode_eq cv es key o
    rw [this]
  · intro sk es key r hr
    obtain ⟨k, hk⟩ := lookup_mem es key r hr
    simp only [Src.children, List.mem_append, List.mem_map]
    exact Or.inr ⟨(k, r), hk, rfl⟩

/-- Witness for `recursiveReflection_descends`: the value stored under `b` in
`{a: [1], b: {c: 2}}` is a sub-value with fewer nodes. -/
theorem recursiveReflection_descends_witness :
    Src.map true [(.str "c", .int 2)]
        ∈ (Src.map true [(.str "a", .seq [.int 1]),
          (.str "b", .map true [(.str "c", .int 2)])]).children ∧
      (Src.map true [(.str "c", .int 2)]).size
        < (Src.map true [(.str "a", .seq [.int 1]),
          (.str "b", .map true [(.str "c", .int 2)])]).size :=
  ⟨by decide, (recursiveReflection_descends truncConv).1 _ _ (by decide)⟩

/-! ## Iteration order of the source mapping (C20) -/

/-- The map loop succeeds exactly when every key and every value decodes. -/
theorem mapLoop_ok_iff (cv : Float32Conv) (sk : Bool) (kt vt : Ty) (es : List (Src × Src))
    (cur : DVal) :
    (∃ d, mapLoop cv sk kt vt es cur = .ok d) ↔
      ∀ p ∈ es, (∃ kd, recursiveReflection cv (keyHandle sk) p.1 (OutRef.new kt) = .ok kd) ∧
        ∃ vd, recursiveReflection cv .elem p.2 (OutRef.new vt) = .ok vd := by
  induction es generalizing cur with
  | nil => simp [mapLoop_nil]
  | cons p rest ih =>
    obtain ⟨k, x⟩ := p
    rw [mapLoop_cons]
    simp only [List.forall_mem_cons]
    cases hk : recursiveReflection cv (keyHandle sk) k (OutRef.new kt) with
    | ok kd =>
      cases hx : recursiveReflection cv .elem x (OutRef.new vt) with
      | ok vd =>
        simp only [ih]
        constructor
        · intro hall
          exact ⟨⟨⟨kd, rfl⟩, ⟨vd, rfl⟩⟩, hall⟩
        · intro hall
          exact hall.2
      | fail e d => simp
      | reject e => simp
      | panic => simp
    | fail e d => simp
    | reject e => simp
    | panic => simp

theorem setEntry_eq_of_beq (k v k0 v0 : DVal) (es : List (DVal × DVal))
    (h : DVal.beq k0 k = true) : setEntry k v ((k0, v0) :: es) = (k, v) :: es := by
  simp [setEntry, h]

theorem setEntry_eq_of_not_beq (k v k0 v0 : DVal) (es : List (DVal × DVal))
    (h : ¬ k0 = k) : setEntry k v ((k0, v0) :: es) = (k0, v0) :: setEntry k v es := by
  have hb : DVal.beq k0 k = false := by
    cases hb : DVal.beq k0 k with
    | false => rfl
    | true => exact absurd ((DVal.dval_beq_iff k0 k).mp hb) h
  simp [setEntry, hb]

/-- Entries of a map with distinct keys after the assignment `m[k] = v`. -/
theorem mem_setEntry_iff (k v : DVal) (es : List (DVal × DVal))
    (hnd : (es.map Prod.fst).Nodup) (k' v' : DVal) :
    (k', v') ∈ setEntry k v es ↔ (k' = k ∧ v' = v) ∨ ((k', v') ∈ es ∧ k' ≠ k) := by
  induction es with
  | nil => simp [setEntry]
  | cons p rest ih =>
    obtain ⟨k0, v0⟩ := p
    rw [List.map_cons, List.nodup_cons] at hnd
    by_cases hk : k0 = k
    · subst hk
      rw [setEntry_eq_of_beq k0 v k0 v0 rest ((DVal.dval_beq_iff k0 k0).mpr rfl)]
      simp only [List.mem_cons, Prod.mk.injEq]
      constructor
      · rintro (h | h)
        · exact Or.inl h
        · right
          refine ⟨Or.inr h, ?_⟩
          rintro rfl
          exact hnd.1 (List.mem_map.mpr ⟨(k', v'), h, rfl⟩)
      · rintro (h | ⟨h | h, hne⟩)
        · exact Or.inl h
        · exact absurd h.1 hne
        · exact Or.inr h
    · rw [setEntry_eq_of_not_beq k v k0 v0 rest hk]
      simp only [List.mem_cons, Prod.mk.injEq, ih hnd.2]
      constructor
      · rintro (h | h | h)
        · right
          refine ⟨Or.inl h, ?_⟩
          rw [h.1]
          exact hk
        · exact Or.inl h
        · exact Or.inr ⟨Or.inr h.1, h.2⟩
      · rintro (h | ⟨h | h, hne⟩)
        · exact Or.inr (Or.inl h)
        · exact Or.inl h
        · exact Or.inr (Or.inr ⟨h, hne⟩)

theorem mem_keys_setEntry_iff (k v : DVal) (es : List (DVal × DVal)) (k' : DVal) :
    k' ∈ (setEntry k v es).map Prod.fst ↔ k' = k ∨ k' ∈ es.map Prod.fst := by
  induction es with
  | nil => simp [setEntry]
  | cons p rest ih =>
    obtain ⟨k0, v0⟩ := p
    by_cases hk : k0 = k
    · subst hk
      rw [setEntry_eq_of_beq k0 v k0 v0 rest ((DVal.dval_beq_iff k0 k0).mpr rfl)]
      simp
    · rw [setEntry_eq_of_not_beq k v k0 v0 rest hk]
      simp only [List.map_cons, List.mem_cons, ih]
      tauto

theorem nodup_keys_setEntry (k v : DVal) (es : List (DVal × DVal))
    (hnd : (es.map Prod.fst).Nodup) : ((setEntry k v es).map Prod.fst).Nodup := by
  induction es with
  | nil => simp [setEntry]
  | cons p rest ih =>
    obtain ⟨k0, v0⟩ := p
    rw [List.map_cons, List.nodup_cons] at hnd
    by_cases hk : k0 = k
    · subst hk
      rw [setEntry_eq_of_beq k0 v k0 v0 rest ((DVal.dval_beq_iff k0 k0).mpr rfl)]
      rw [List.map_cons, List.nodup_cons]
      exact hnd
    · rw [setEntry_eq_of_not_beq k v k0 v0 rest hk]
      rw [List.map_cons, List.nodup_cons]
      refine ⟨?_, ih hnd.2⟩
      rw [mem_keys_setEntry_iff]
      rintro (h | h)
      · exact hk h
      · exact hnd.1 h

/-- Entries of a map with distinct keys after the assignments `m[k] = v` for
pairs `qs` with distinct keys: the pairs of `qs`, and the old entries whose
key is not assigned. -/
theorem foldl_setEntry_spec (qs : List (DVal × DVal)) (acc : List (DVal × DVal))
    (hq : (qs.map Prod.fst).Nodup) (ha : (acc.map Prod.fst).Nodup) :
    ((qs.foldl (fun a q => setEntry q.1 q.2 a) acc).map Prod.fst).Nodup ∧
      ∀ k v, (k, v) ∈ qs.foldl (fun a q => setEntry q.1 q.2 a) acc ↔
        (k, v) ∈ qs ∨ ((k, v) ∈ acc ∧ k ∉ qs.map Prod.fst) := by
  induction qs generalizing acc with
  | nil => exact ⟨ha, by simp⟩
  | cons q qs ih =>
    obtain ⟨kq, vq⟩ := q
    rw [List.map_cons, List.nodup_cons] at hq
    have ha' := nodup_keys_setEntry kq vq acc ha
    obtain ⟨hnd, hmem⟩ := ih (setEntry kq vq acc) hq.2 ha'
    refine ⟨hnd, ?_⟩
    intro k v
    simp only [List.foldl_cons]
    rw [hmem k v, mem_setEntry_iff kq vq acc ha]
    simp only [List.mem_cons, Prod.mk.injEq, List.map_cons, not_or]
    constructor
    · rintro (h | ⟨h | h, hn⟩)
      · exact Or.inl (Or.inr h)
      · exact Or.inl (Or.inl h)
      · exact Or.inr ⟨h.1, h.2, hn⟩
    · rintro ((h | h) | ⟨h, hne, hn⟩)
      · right
        refine ⟨Or.inl h, ?_⟩
        rw [h.1]
        exact hq.1
      · exact Or.inl h
      · exact Or.inr ⟨Or.inr ⟨h, hne⟩, hn⟩

/-- Assigning the same pairs in another order gives the same map. -/
theorem foldl_setEntry_perm (qs qs' : List (DVal × DVal)) (acc : List (DVal × DVal))
    (hperm : qs.Perm qs') (hq : (qs.map Prod.fst).Nodup) (ha : (acc.map Prod.fst).Nodup) :
    (qs.foldl (fun a q => setEntry q.1 q.2 a) acc).Perm
      (qs'.foldl (fun a q => setEntry q.1 q.2 a) acc) := by
  have hq' : (qs'.map Prod.fst).Nodup := (hperm.map Prod.fst).nodup_iff.mp hq
  obtain ⟨hnd, hmem⟩ := foldl_setEntry_spec qs acc hq ha
  obtain ⟨hnd', hmem'⟩ := foldl_setEntry_spec qs' acc hq' ha
  rw [List.perm_ext_iff_of_nodup (List.Nodup.of_map _ hnd) (List.Nodup.of_map _ hnd')]
  rintro ⟨k, v⟩
  rw [hmem k v, hmem' k v, hperm.mem_iff, (hperm.map Prod.fst).mem_iff]

/-- Decoded keys that are pairwise distinct form a duplicate-free list. -/
theorem nodup_decoded_keys (cv : Float32Conv) (sk : Bool) (kt vt : Ty) (es : List (Src × Src))
    (qs : List (DVal × DVal))
    (hqs : List.Forall₂ (fun p q =>
      recursiveReflection cv (keyHandle sk) p.1 (OutRef.new kt) = .ok q.1 ∧
      recursiveReflection cv .elem p.2 (OutRef.new vt) = .ok q.2) es qs)
    (hdist : es.Pairwise (fun p q => ∀ kd,
      recursiveReflection cv (keyHandle sk) p.1 (OutRef.new kt) = .ok kd →
      recursiveReflection cv (keyHandle sk) q.1 (OutRef.new kt) ≠ .ok kd)) :
    (qs.map Prod.fst).Nodup := by
  induction hqs with
  | nil => simp
  | @cons p q es qs hpq hrest ih =>
    rw [List.pairwise_cons] at hdist
    rw [List.map_cons, List.nodup_cons]
    refine ⟨?_, ih hdist.2⟩
    intro hmem
    obtain ⟨q', hq', hfst⟩ := List.mem_map.mp hmem
    obtain ⟨p', hp', hr⟩ := forall₂_mem_right _ es qs hrest q' hq'
    exact hdist.1 p' hp' q.1 hpq.1 (by rw [hr.1, hfst])

/-- C20 (amended): two enumerations `es`, `es'` of the entries of one source
mapping, decoded into the same map destination. Decoding succeeds for one
order exactly when it succeeds for the other. When the destination has
distinct keys, every entry decodes and the decoded keys are pairwise distinct,
both orders succeed and leave maps with the same entries. -/
theorem mapping_order_independence (cv : Float32Conv) (h : Handle) (sk : Bool) (kt vt : Ty)
    (es es' : List (Src × Src)) (cur : DVal) (hperm : es.Perm es') :
    ((∃ d, recursiveReflection cv h (.map sk es) (.ptr false (.map kt vt) cur) = .ok d) ↔
      ∃ d, recursiveReflection cv h (.map sk es') (.ptr false (.map kt vt) cur) = .ok d) ∧
    ((cur.entries.map Prod.fst).Nodup →
      (∀ p ∈ es, ∃ kd vd,
        recursiveReflection cv (keyHandle sk) p.1 (OutRef.new kt) = .ok kd ∧
        recursiveReflection cv .elem p.2 (OutRef.new vt) = .ok vd) →
      es.Pairwise (fun p q => ∀ kd,
        recursiveReflection cv (keyHandle sk) p.1 (OutRef.new kt) = .ok kd →
        recursiveReflection cv (keyHandle sk) q.1 (OutRef.new kt) ≠ .ok kd) →
      ∃ out out',
        recursiveReflection cv h (.map sk es) (.ptr false (.map kt vt) cur)
          = .ok (.map out) ∧
        recursiveReflection cv h (.map sk es') (.ptr false (.map kt vt) cur)
          = .ok (.map out') ∧
        out.Perm out') := by
  constructor
  · rw [recursiveReflection_map, recursiveReflection_map, mapLoop_ok_iff, mapLoop_ok_iff]
    constructor
    · intro hall p hp
      exact hall p (hperm.mem_iff.mpr hp)
    · intro hall p hp
      exact hall p (hperm.mem_iff.mp hp)
  · intro hcur hdec hdist
    have hdec' : ∀ p ∈ es, ∃ q : DVal × DVal,
        recursiveReflection cv (keyHandle sk) p.1 (OutRef.new kt) = .ok q.1 ∧
        recursiveReflection cv .elem p.2 (OutRef.new vt) = .ok q.2 := by
      intro p hp
      obtain ⟨kd, vd, h1, h2⟩ := hdec p hp
      exact ⟨(kd, vd), h1, h2⟩
    obtain ⟨qs, hqs⟩ := exists_forall₂_of_forall_exists _ es hdec'
    obtain ⟨qs', hqs', hpq⟩ := List.perm_comp_forall₂ hperm.symm hqs
    have hnd := nodup_decoded_keys cv sk kt vt es qs hqs hdist
    refine ⟨_, _, ?_, ?_, foldl_setEntry_perm qs qs' cur.entries hpq.symm hnd hcur⟩
    · rw [recursiveReflection_map, DVal.makeMapIfNil_eq, mapLoop_ok_fold cv sk kt vt es qs hqs]
    · rw [recursiveReflection_map, DVal.makeMapIfNil_eq,
        mapLoop_ok_fold cv sk kt vt es' qs' hqs']

/-- Witness for `mapping_order_independence`: `{first: 1, second: 2}` and
`{second: 2, first: 1}` into a `map[string]int` holding `first -> 9`. -/
theorem mapping_order_independence_witness :
    [(Src.str "first", Src.int 1), (Src.str "second", Src.int 2)].Perm
        [(Src.str "second", Src.int 2), (Src.str "first", Src.int 1)] ∧
      ∃ out out',
        recursiveReflection truncConv .elem
          (.map true [(.str "first", .int 1), (.str "second", .int 2)])
          (.ptr false (.map .str (.int .int)) (.map [(.str "first", .int 9)]))
          = .ok (.map out) ∧
        recursiveReflection truncConv .elem
          (.map true [(.str "second", .int 2), (.str "first", .int 1)])
          (.ptr false (.map .str (.int .int)) (.map [(.str "first", .int 9)]))
          = .ok (.map out') ∧
        out.Perm out' :=
  ⟨List.Perm.swap _ _ _,
    (mapping_order_independence truncConv .elem true .str (.int .int)
      [(.str "first", .int 1), (.str "second", .int 2)]
      [(.str "second", .int 2), (.str "first", .int 1)]
      (.map [(.str "first", .int 9)]) (List.Perm.swap _ _ _)).2
      (by decide)
      (by
        intro p hp
        simp only [List.mem_cons, List.mem_singleton, List.not_mem_nil, or_false] at hp
        rcases hp with rfl | rfl <;> exact ⟨_, _, rfl, rfl⟩)
      (by
        refine List.Pairwise.cons ?_ (List.Pairwise.cons ?_ List.Pairwise.nil)
        · intro q hq kd hkd
          simp only [List.mem_singleton] at hq
          subst hq
          have h1 : recursiveReflection truncConv (keyHandle true) (Src.str "first")
              (OutRef.new .str) = .ok (.str "first") := rfl
          rw [h1] at hkd
          rw [← Outcome.ok.inj hkd]
          decide
        · intro q hq
          simp at hq)⟩

/-- C20 (counterexample): the entries `1 -> a` and `257 -> b` decoded into a
nil `map[int8]string` leave `1 -> b` in one order and `1 -> a` in the other;
the entries `a -> [p]` and `b -> 1` decoded into a nil `map[string][]string`
fail in both orders, leaving the entry for `a` in one order and no entry in
the other. -/
theorem mapping_order_matters :
    recursiveReflection truncConv .elem
        (.map false [(.int 1, .str "a"), (.int 257, .str "b")])
        (.ptr false (.map (.int .int8) .str) .nilMap) = .ok (.map [(.int 1, .str "b")]) ∧
      recursiveReflection truncConv .elem
        (.map false [(.int 257, .str "b"), (.int 1, .str "a")])
        (.ptr false (.map (.int .int8) .str) .nilMap) = .ok (.map [(.int 1, .str "a")]) ∧
      ¬ [(DVal.int 1, DVal.str "b")].Perm [(DVal.int 1, DVal.str "a")] ∧
      recursiveReflection truncConv .elem
        (.map true [(.str "a", .seq [.str "p"]), (.str "b", .int 1)])
        (.ptr false (.map .str (.slice .str)) .nilMap)
        = .fail .notArray (.map [(.str "a", .slice [.str "p"])]) ∧
      recursiveReflection truncConv .elem
        (.map true [(.str "b", .int 1), (.str "a", .seq [.str "p"])])
        (.ptr false (.map .str (.slice .str)) .nilMap) = .fail .notArray (.map []) := by
  refine ⟨by decide, by decide, ?_, by decide, by decide⟩
  intro hp
  have := hp.mem_iff (a := (DVal.int 1, DVal.str "b"))
  simp at this

end Nonoconfig
